import Mathlib

/-!
Verification of the gradual/static type-system core of the repository
(`src/static`, `src/gradual`, `src/gradual/evidence`).

The Python source is embedded shallowly:

* The object universe is one inductive `GType`.  The source spreads its
  types over several Python classes (`TopType`, `BottomType`, `ClassName`,
  `FunctionType` in `src/static/types.py`; `GradualFunctionType` and
  `Unknown` in `src/gradual/types.py` and `src/gradual/definitions.py`).
  The three function-type classes are merged into the single constructor
  `GType.fn` and the two `Unknown` classes into `GType.unknown`; every
  evaluation performed in this file stays inside one of the source's
  class universes, where the merge is observationally faithful, and the
  few places where the merge could matter are flagged in comments.
* Python `set` values are modelled as Lean `List`s with explicit
  insert-if-absent operations; every equality the source performs through
  a `set`/`frozenset`-based `__eq__` is modelled by an explicit
  set-equality Boolean function, so iteration order never influences a
  modelled result that the source defines order-independently.
* Python `raise` is modelled with `Except PyError`; `None` with `Option`.
  In particular the evidence-meet functions insert bare
  `EvidenceInterval`s into specification containers, and every later
  `.var`/`.interval` read of such an element is modelled as a raised
  `AttributeError`.
* The `visited`-set recursion of `is_subtype` is modelled with an explicit
  fuel parameter.  The fuel chosen at each top-level entry strictly exceeds
  the depth the source recursion can reach (each recursive entry adds a
  fresh pair to `visited`, and all pairs come from subterms of the two
  argument types together with edge endpoints, so the recursion depth is
  at most the square of `size t1 + size t2 + |Es|`); the fuel-exhaustion
  branches are therefore dead at every call site used here.
-/

/-- The universe of type values handled by the source: `TopType`,
`BottomType`, `ClassName(name)`, function types (domain tuple plus
codomain) and the gradual `Unknown`. -/
inductive GType where
  | top
  | bot
  | cls (name : String)
  | fn (domain : List GType) (codomain : GType)
  | unknown

mutual
/-- Structural equality on `GType`, mirroring the `__eq__` methods of the
source's type classes (dataclass field equality; `ClassName` equality is by
name). -/
def GType.beq : GType → GType → Bool
  | .top, .top => true
  | .bot, .bot => true
  | .cls a, .cls b => a = b
  | .fn d1 c1, .fn d2 c2 => GType.beqList d1 d2 && GType.beq c1 c2
  | .unknown, .unknown => true
  | _, _ => false

/-- Pointwise structural equality of domain tuples. -/
def GType.beqList : List GType → List GType → Bool
  | [], [] => true
  | a :: as, b :: bs => GType.beq a b && GType.beqList as bs
  | _, _ => false
end

mutual
theorem GType.beq_iff : ∀ a b : GType, GType.beq a b = true ↔ a = b
  | .top, b => by cases b <;> simp [GType.beq]
  | .bot, b => by cases b <;> simp [GType.beq]
  | .cls a, b => by cases b <;> simp [GType.beq]
  | .fn d1 c1, b => by
      cases b <;> simp [GType.beq]
      case fn d2 c2 =>
        rw [GType.beq_iff c1 c2, GType.beqList_iff d1 d2]
  | .unknown, b => by cases b <;> simp [GType.beq]

theorem GType.beqList_iff : ∀ l1 l2 : List GType, GType.beqList l1 l2 = true ↔ l1 = l2
  | [], l2 => by cases l2 <;> simp [GType.beqList]
  | a :: as, l2 => by
      cases l2 <;> simp [GType.beqList]
      case cons b bs =>
        rw [GType.beq_iff a b, GType.beqList_iff as bs]
end

instance : DecidableEq GType := fun a b =>
  decidable_of_iff (GType.beq a b = true) (GType.beq_iff a b)

/-- A declared direct-subtype edge (`Edge(source, target)` in
`src/static/definitions.py`); both endpoints are class names and
`ClassName` equality is by name, so the endpoints are kept as strings. -/
structure Edge where
  source : String
  target : String
deriving DecidableEq

/-- One named member (`Signature(var, type)`). -/
structure Sig where
  var : String
  type : GType
deriving DecidableEq

/-- The signature set stored by a `Specification`.  The Python constructor
coerces its argument with `set(...)`; `mkSpec` below performs the
corresponding deduplication.  `Specification.__eq__` compares the
signature sets, modelled by `specSetEq`. -/
abbrev Spec := List Sig

/-- `Environment(Ns, Es, sigma)`: class nodes, declared edges, and each
class's own declared members (`sigma` is a Python dict keyed by class
name). -/
structure Env where
  Ns : List String
  Es : List Edge
  sigma : List (String × Spec)

/- ### Python-set helpers -/

/-- `s.add(x)` on a Python set, for element types whose `__eq__` is
structural: keep the list unchanged if an equal element is present,
otherwise append. -/
def pyInsert {α} [DecidableEq α] (xs : List α) (x : α) : List α :=
  if x ∈ xs then xs else xs ++ [x]

/-- `s.add(x)` for element types with a custom `__eq__` (specifications,
evidences): membership is tested with the supplied equality. -/
def pyInsertBy {α} (eq : α → α → Bool) (xs : List α) (x : α) : List α :=
  if xs.any (eq x) then xs else xs ++ [x]

/-- `set(xs)`: deduplicate, keeping first occurrences. -/
def pyDedup {α} [DecidableEq α] (xs : List α) : List α :=
  xs.foldl pyInsert []

/-- Set equality between two deduplicated element lists (Python
`set == set` / `frozenset == frozenset`): same members, order ignored. -/
def listSetEq {α} [DecidableEq α] (xs ys : List α) : Bool :=
  xs.all (· ∈ ys) && ys.all (· ∈ xs)

/-- `Specification.__eq__`: the two signature sets are equal. -/
def specSetEq (s1 s2 : Spec) : Bool := listSetEq s1 s2

/-- The Python `Specification(signatures)` constructor (it stores
`set(signatures)`). -/
def mkSpec (l : List Sig) : Spec := pyDedup l

/-- `sigma.get(name)`: `None` when the class has no entry. -/
def sigmaLookup (env : Env) (name : String) : Option Spec :=
  (env.sigma.find? (fun p => p.1 = name)).map (·.2)

/-- `sigma[name]` (plain indexing).  The source raises `KeyError` when the
entry is missing; every environment used in this file assigns a
specification to every edge target, so the default branch is never read. -/
def sigmaGet (env : Env) (name : String) : Spec :=
  (sigmaLookup env name).getD []

/- ### Static subtyping (`src/static/subtyping.py`) -/

/-- `is_direct_subtype(environment, c1, c2)`: an edge `c1 -> c2` exists. -/
def is_direct_subtype (env : Env) (c1 c2 : String) : Bool :=
  env.Es.any (fun e => e.source = c1 && e.target = c2)

mutual
/-- Number of subterms of a type (used only to bound the recursion fuel). -/
def GType.size : GType → Nat
  | .fn d c => 1 + GType.sizeList d + GType.size c
  | _ => 1

/-- Total subterm count of a domain tuple. -/
def GType.sizeList : List GType → Nat
  | [] => 0
  | a :: as => GType.size a + GType.sizeList as
end

/-- Fuel bound for `is_subtype`: every recursive entry of the source adds a
fresh `(t1, t2)` pair to `visited` and both components always come from
subterms of the original arguments or from edge endpoints, so the source's
recursion depth is below this square. -/
def subFuel (env : Env) (t1 t2 : GType) : Nat :=
  (GType.size t1 + GType.size t2 + env.Es.length + 1) ^ 2 + 1

/-- `is_subtype(environment, t1, t2, visited)` of `src/static/subtyping.py`,
with the mutable `visited` set threaded explicitly (the source mutates one
shared set across sibling recursive calls, so the updated set is returned).
The branches before the `match` are exactly the source's checks in order:
the `visited` guard, `t1 == t2`, `TopType`, `BottomType`.  The fuel is
consumed only by the two recursive branches; the `0` fuel row is
unreachable for the fuel supplied by `is_subtype`. -/
def isSubAux (env : Env) : Nat → List (GType × GType) → GType → GType →
    Bool × List (GType × GType)
  | fuel, vis, t1, t2 =>
    if (t1, t2) ∈ vis then (false, vis)
    else
      let vis' := (t1, t2) :: vis
      if t1 = t2 then (true, vis')
      else if t2 = .top then (true, vis')
      else if t1 = .bot then (true, vis')
      else
        match t1, t2 with
        | .fn d1 c1, .fn d2 c2 =>
          if d1.length ≠ d2.length then (false, vis')
          else
            match fuel with
            | 0 => (false, vis')
            | fuel' + 1 =>
              -- domain_check: `all(is_subtype(env, t2a, t1a, visited) ...)`,
              -- contravariant, short-circuiting on the first failure (the
              -- remaining pairs are then not visited, as with a Python
              -- generator); codomain_check is evaluated unconditionally.
              let dom := (d1.zip d2).foldl
                (fun (acc : Bool × List (GType × GType)) p =>
                  if acc.1 then isSubAux env fuel' acc.2 p.2 p.1 else acc)
                (true, vis')
              let cod := isSubAux env fuel' dom.2 c1 c2
              (dom.1 && cod.1, cod.2)
        | .cls n1, .cls n2 =>
          if is_direct_subtype env n1 n2 then (true, vis')
          else
            match fuel with
            | 0 => (false, vis')
            | fuel' + 1 =>
              -- `for edge in Es: if edge.source == t1: recurse(edge.target, t2)`
              env.Es.foldl
                (fun (acc : Bool × List (GType × GType)) e =>
                  if acc.1 then acc
                  else if e.source = n1 then
                    isSubAux env fuel' acc.2 (.cls e.target) t2
                  else acc)
                (false, vis')
        | _, _ => (false, vis')

/-- `is_subtype(environment, t1, t2)` with a fresh `visited` set. -/
def is_subtype (env : Env) (t1 t2 : GType) : Bool :=
  (isSubAux env (subFuel env t1 t2) [] t1 t2).1

/- ### Gradual subtyping (`src/gradual/subtyping.py`) -/

/-- `is_gradual_subtype(environment, t1, t2, visited)`.  The guard chain
adds the two `Unknown` checks after the `Top`/`Bottom` ones.  Note that the
function-type branch of the source checks the domains and the codomain with
the *static* `is_subtype` (imported at the top of the module), sharing the
`visited` set, and the class-name branch delegates to the static
`is_subtype` with a fresh `visited` set. -/
def isGradAux (env : Env) : Nat → List (GType × GType) → GType → GType →
    Bool × List (GType × GType)
  | fuel, vis, t1, t2 =>
    if (t1, t2) ∈ vis then (false, vis)
    else
      let vis' := (t1, t2) :: vis
      if t1 = t2 then (true, vis')
      else if t2 = .top then (true, vis')
      else if t1 = .bot then (true, vis')
      else if t2 = .unknown then (true, vis')
      else if t1 = .unknown then (true, vis')
      else
        match t1, t2 with
        | .fn d1 c1, .fn d2 c2 =>
          if d1.length ≠ d2.length then (false, vis')
          else
            match fuel with
            | 0 => (false, vis')
            | fuel' + 1 =>
              let dom := (d1.zip d2).foldl
                (fun (acc : Bool × List (GType × GType)) p =>
                  if acc.1 then isSubAux env fuel' acc.2 p.2 p.1 else acc)
                (true, vis')
              let cod := isSubAux env fuel' dom.2 c1 c2
              (dom.1 && cod.1, cod.2)
        | .cls n1, .cls n2 =>
          (is_subtype env (.cls n1) (.cls n2), vis')
        | _, _ => (false, vis')

/-- `is_gradual_subtype(environment, t1, t2)` with a fresh `visited` set. -/
def is_gradual_subtype (env : Env) (t1 t2 : GType) : Bool :=
  (isGradAux env (subFuel env t1 t2) [] t1 t2).1

/- ### The six-class diamond environment of `tests/gradual/test_evidence.py` -/

/-- The six-class diamond used throughout the repository's evidence tests:
`B, C <: A`; `D, E <: B, C`; `F <: D, E`; with `B` declaring `x : B`,
`C` declaring `x : C, z : ?`, `D` declaring `x : ?, y : A`,
`E` declaring `x : E`, `F` declaring `z : D`. -/
def envSix : Env :=
  { Ns := ["A", "B", "C", "D", "E", "F"]
    Es := [⟨"B", "A"⟩, ⟨"C", "A"⟩, ⟨"D", "B"⟩, ⟨"D", "C"⟩,
           ⟨"E", "B"⟩, ⟨"E", "C"⟩, ⟨"F", "D"⟩, ⟨"F", "E"⟩]
    sigma := [("A", []),
              ("B", [⟨"x", .cls "B"⟩]),
              ("C", [⟨"x", .cls "C"⟩, ⟨"z", .unknown⟩]),
              ("D", [⟨"x", .unknown⟩, ⟨"y", .cls "A"⟩]),
              ("E", [⟨"x", .cls "E"⟩]),
              ("F", [⟨"z", .cls "D"⟩])] }

example : is_subtype envSix (.cls "F") (.cls "A") = true := by decide
example : is_subtype envSix (.cls "A") (.cls "F") = false := by decide
example : is_subtype envSix .bot (.cls "C") = true := by decide
example : is_gradual_subtype envSix (.cls "E") .unknown = true := by decide
example : is_gradual_subtype envSix
    (.fn [.unknown] .unknown) (.fn [.cls "A"] (.cls "A")) = false := by decide

/- ### Static lattice functions (`src/static/functions.py`) -/

/-- `lower_set(environment, ti)`: `{ti}`, every node that is a strict
subtype of `ti`, and `BottomType` when `Bottom <: ti` (always true). -/
def lower_set (env : Env) (ti : GType) : List GType :=
  let r := env.Ns.foldl
    (fun acc n =>
      let t := GType.cls n
      if is_subtype env t ti && t ≠ ti then pyInsert acc t else acc)
    [ti]
  if is_subtype env .bot ti then pyInsert r .bot else r

/-- `upper_set(environment, ti)`: the nodes `T` with `ti <: T`. -/
def upper_set (env : Env) (ti : GType) : List GType :=
  pyDedup (env.Ns.filterMap
    (fun n => if is_subtype env ti (.cls n) then some (GType.cls n) else none))

/-- `meet(environment, ti, tj)`: `{ti}` when `ti == tj`, otherwise the
maximal elements of `lower_set(ti) ∩ lower_set(tj)`. -/
def meet (env : Env) (ti tj : GType) : List GType :=
  if ti = tj then [ti]
  else
    let common := (lower_set env ti).filter (· ∈ lower_set env tj)
    common.filter
      (fun t => common.all (fun t' => t' = t || ! is_subtype env t t'))

/-- `meet_unique`: the meet when it is a singleton, `None` otherwise. -/
def meet_unique (env : Env) (ti tj : GType) : Option GType :=
  match meet env ti tj with
  | [t] => some t
  | _ => none

/-- `join(environment, ti, tj)`: the minimal elements of
`upper_set(ti) ∩ upper_set(tj)` (no `ti == tj` shortcut in the source). -/
def join (env : Env) (ti tj : GType) : List GType :=
  let common := (upper_set env ti).filter (· ∈ upper_set env tj)
  common.filter
    (fun t => common.all (fun t' => t' = t || ! is_subtype env t' t))

/-- `join_unique`: the join when it is a singleton, `None` otherwise. -/
def join_unique (env : Env) (ti tj : GType) : Option GType :=
  match join env ti tj with
  | [t] => some t
  | _ => none

/-- `proj(x, s)`: the type of `x` in `s`, `None` when absent (identical in
`src/static/functions.py` and `src/gradual/functions.py`). -/
def proj (x : String) (s : Spec) : Option GType :=
  (s.find? (fun sig => sig.var = x)).map (·.type)

/-- `names(s)`: the member names of a specification, as a set. -/
def namesOf (s : Spec) : List String :=
  pyDedup (s.map (·.var))

/-- `proj_many(var, ss)`: the projections of `var` that are present. -/
def proj_many (var : String) (ss : List Spec) : List GType :=
  ss.filterMap (proj var)

/-- `get_all_parent_specifications(environment, class_name)`: the declared
(`sigma`) specifications of the direct parents, gathered as a Python set of
`Specification` values (so duplicates under specification set-equality are
merged).  Source: `src/static/functions.py`. -/
def get_all_parent_specifications (env : Env) (cn : String) : List Spec :=
  if cn ∉ env.Ns then []
  else
    env.Es.foldl
      (fun acc e =>
        if e.source = cn && is_direct_subtype env e.source e.target then
          pyInsertBy specSetEq acc (sigmaGet env e.target)
        else acc)
      []

/-- `undeclared(environment, class_name)`: names that appear in some direct
parent's declared specification but not in the class's own. -/
def undeclared (env : Env) (cn : String) : List String :=
  match sigmaLookup env cn with
  | none => []
  | some s =>
    let declared := namesOf s
    let parents := get_all_parent_specifications env cn
    let inheritedNames := parents.foldl
      (fun acc sp => (namesOf sp).foldl pyInsert acc) []
    inheritedNames.filter (· ∉ declared)

/- ### Gradual meet/join with consistency (`src/gradual/functions.py`) -/

/-- The exception values the source can raise. -/
inductive PyError where
  | valueError
  | attributeError
  | typeError
deriving DecidableEq

instance {ε α} [DecidableEq ε] [DecidableEq α] : DecidableEq (Except ε α) :=
  fun a b =>
    match a, b with
    | .error e1, .error e2 => decidable_of_iff (e1 = e2) (by simp)
    | .ok v1, .ok v2 => decidable_of_iff (v1 = v2) (by simp)
    | .error _, .ok _ => .isFalse (by simp)
    | .ok _, .error _ => .isFalse (by simp)

/-- Shared recursion core of `meet_unique_consistent` (mode `true`) and
`join_unique_consistent` (mode `false`).  The two sources differ only
inside the function-type case (the argument list of a meet is built with
`join_unique_consistent` and vice versa); all other match arms are
literally identical in the two source functions — in particular the
`Type(), Type()` arm of `join_unique_consistent` also calls `meet_unique`
(a slip kept faithfully here).  Arms in source order: the function-type
case (raising `ValueError` on an arity mismatch), `Type(), Type()`
(anything but `Unknown`), the `Bottom`, `Top` and `Unknown` cases.  The
fuel only bounds the structural recursion and is never exhausted for the
fuel chosen by the wrappers. -/
def mucAux (env : Env) : Nat → Bool → GType → GType →
    Except PyError (Option GType)
  | fuel, isMeet, t1, t2 =>
    match t1, t2 with
    | .fn d1 c1, .fn d2 c2 =>
      if d1.length ≠ d2.length then .error .valueError
      else
        match fuel with
        | 0 => pure none
        | fuel' + 1 => do
          let argOpts ← (d1.zip d2).mapM
            (fun p => mucAux env fuel' (! isMeet) p.1 p.2)
          match argOpts.mapM id with
          | none => pure none
          | some args =>
            match ← mucAux env fuel' isMeet c1 c2 with
            | none => pure none
            | some ret => pure (some (.fn args ret))
    | t1, t2 =>
      if t1 ≠ .unknown && t2 ≠ .unknown then pure (meet_unique env t1 t2)
      else
        match t1, t2 with
        | .bot, _ => pure (some .bot)
        | _, .bot => pure (some .bot)
        | .top, _ => pure (some t2)
        | _, .top => pure (some t1)
        | .unknown, _ => pure (some .unknown)
        | _, _ => pure (some .unknown)

/-- `meet_unique_consistent(environment, ti, tj)`. -/
def meet_unique_consistent (env : Env) (t1 t2 : GType) :
    Except PyError (Option GType) :=
  mucAux env (GType.size t1 + 1) true t1 t2

/-- `join_unique_consistent(environment, ti, tj)`. -/
def join_unique_consistent (env : Env) (t1 t2 : GType) :
    Except PyError (Option GType) :=
  mucAux env (GType.size t1 + 1) false t1 t2

/- ### Specification resolution (`src/gradual/functions.py`) -/

/-- Insertion into the `{sig.var: sig}` dict built by the resolvers: a
later signature with the same name overwrites the stored value in place,
otherwise it is appended (Python dict semantics). -/
def dictInsertSig (d : List Sig) (s : Sig) : List Sig :=
  if d.any (fun x => x.var = s.var) then
    d.map (fun x => if x.var = s.var then s else x)
  else d ++ [s]

/-- `inherited(environment, class_name)` of `src/gradual/functions.py`:
for each undeclared name, fold the parents' projections with
`meet_unique_consistent`, but only when both sides are `ClassName`s — any
other projected type (`Unknown`, function types, `Top`, `Bottom`) makes
the member be dropped.  The result is the insertion-ordered dict of
inherited names.  `Except` propagates a `ValueError` raised by
`meet_unique_consistent` (never triggered by class-name arguments). -/
def inheritedG (env : Env) (cn : String) :
    Except PyError (List (String × GType)) :=
  (undeclared env cn).foldlM
    (fun acc var => do
      let projected := proj_many var (get_all_parent_specifications env cn)
      match projected with
      | [] => pure acc
      | p0 :: rest => do
        let m ← rest.foldlM
          (fun (c : Option GType) other =>
            match c with
            | none => pure none
            | some cm =>
              match cm, other with
              | .cls a, .cls b =>
                meet_unique_consistent env (.cls a) (.cls b)
              | _, _ => pure none)
          (some p0)
        match m with
        | some t => pure (acc ++ [(var, t)])
        | none => pure acc)
    []

/-- `get_specifications(environment, class_name)` of
`src/gradual/functions.py`: the declared signatures, then the inherited
ones for names not declared. -/
def get_specificationsG (env : Env) (cn : String) : Except PyError Spec := do
  let explicit := (sigmaLookup env cn).getD []
  let inh ← inheritedG env cn
  let combined := (inh.map (fun p => Sig.mk p.1 p.2)).foldl
    (fun d sig => if d.any (fun x => x.var = sig.var) then d else d ++ [sig])
    (explicit.foldl dictInsertSig [])
  pure (mkSpec combined)

/-- `inherited(environment, class_name)` of `src/static/functions.py`
(via `_inherited_core` with `meet_unique`): the fold keeps going for any
projected types and drops the member only when `meet_unique` yields no
unique meet. -/
def inheritedS (env : Env) (cn : String) : List Sig :=
  (undeclared env cn).foldl
    (fun acc var =>
      match proj_many var (get_all_parent_specifications env cn) with
      | [] => acc
      | p0 :: rest =>
        let m := rest.foldl
          (fun c other =>
            match c with
            | none => none
            | some cm => meet_unique env cm other)
          (some p0)
        match m with
        | some t => pyInsert acc ⟨var, t⟩
        | none => acc)
    []

/-- `get_specifications(environment, class_name)` of
`src/static/functions.py` (via `_get_specifications_core`). -/
def get_specificationsS (env : Env) (cn : String) : Spec :=
  let explicit := (sigmaLookup env cn).getD []
  let combined := (inheritedS env cn).foldl
    (fun d sig => if d.any (fun x => x.var = sig.var) then d else d ++ [sig])
    (explicit.foldl dictInsertSig [])
  mkSpec combined

example : meet envSix (.cls "B") (.cls "C") = [.cls "D", .cls "E"] := by decide
example : meet_unique envSix (.cls "B") (.cls "C") = none := by decide
example : join envSix (.cls "B") (.cls "C") = [.cls "A"] := by decide
example : get_specificationsG envSix "D" =
    .ok [⟨"x", .unknown⟩, ⟨"y", .cls "A"⟩, ⟨"z", .unknown⟩] := by decide
example : get_specificationsG envSix "F" =
    .ok [⟨"z", .cls "D"⟩, ⟨"y", .cls "A"⟩] := by decide
example : get_specificationsS envSix "F" =
    [⟨"z", .cls "D"⟩, ⟨"x", .bot⟩, ⟨"y", .cls "A"⟩] := by decide

/- ### Evidence data model (`src/gradual/evidence/definitions.py`) -/

/-- `EvidenceInterval(lower_bound, upper_bound)`; its `__eq__` compares
both bounds structurally, so Lean equality coincides with it. -/
structure EInterval where
  lb : GType
  ub : GType
deriving DecidableEq

/-- `EvidenceSignature(var, interval)`; structural `__eq__`. -/
structure ESig where
  var : String
  interval : EInterval
deriving DecidableEq

/-- A list of proper signatures, as built by the interior functions. -/
abbrev ESpec := List ESig

/-- An element of an `EvidenceSpecification`'s container.  The interior
functions build containers of `EvidenceSignature`s, but
`meet_evidence_specifications` inserts the met `EvidenceInterval` itself
(`combined = [new_signature] + extra_signatures`, where `new_signature`
is drawn from `meet_evidence_intervals` and never wrapped in an
`EvidenceSignature`), so an element is either a proper signature or such
a bare interval.  The `__eq__` of the two source classes each test
`isinstance` first, so cross-class comparisons are `False`, matching the
structural equality of the two constructors. -/
inductive MItem where
  | sig (s : ESig)
  | bare (i : EInterval)
deriving DecidableEq

/-- The element collection held by an `EvidenceSpecification`.  The
constructor stores it as given (no `set()` coercion); `__eq__` compares
the element `frozenset`s, modelled by `especEq`. -/
abbrev MSpec := List MItem

/-- A well-formed specification: proper signatures only. -/
def MSpec.proper (s : MSpec) : Bool :=
  s.all (fun item => match item with | .sig _ => true | .bare _ => false)

/-- A list of proper signatures as a specification container. -/
def specM (s : ESpec) : MSpec := s.map MItem.sig

/-- `EvidenceSpecification.__eq__`. -/
def especEq (s1 s2 : MSpec) : Bool := listSetEq s1 s2

/-- `Evidence(specification_1, specification_2)`. -/
structure Evd where
  s1 : MSpec
  s2 : MSpec
deriving DecidableEq

/-- `Evidence.__eq__`: both specifications equal as element sets. -/
def evdEq (e1 e2 : Evd) : Bool :=
  especEq e1.s1 e2.s1 && especEq e1.s2 e2.s2

/-- The evidence collection held by a `CompleteEvidence`.  The evidence
functions of the source always build it from a Python list, which is what
this models; `CompleteEvidence.__eq__` compares the stored containers
directly, which for two lists is length-and-pointwise equality under
`Evidence.__eq__`, modelled by `ceEqPy`. -/
abbrev CE := List Evd

/-- `CompleteEvidence.__eq__` for two list-backed values. -/
def ceEqPy (c1 c2 : CE) : Bool :=
  c1.length = c2.length && (c1.zip c2).all (fun p => evdEq p.1 p.2)

/- ### Interior functions (`src/gradual/evidence/functions.py`) -/

/-- `lift_gradual_type(t)`.  For a function type the source recurses with
the whole *domain tuple* as argument; the tuple matches neither the
`GradualFunctionType` nor the `Unknown` pattern, so it is lifted by the
default case to the degenerate interval `[domain, domain]`, and the
resulting bounds keep the original domain on both sides (no contravariant
flip actually happens).  This arm reproduces that behaviour. -/
def lift_gradual_type : GType → EInterval
  | .fn d c =>
    let ci := lift_gradual_type c
    ⟨.fn d ci.lb, .fn d ci.ub⟩
  | .unknown => ⟨.bot, .top⟩
  | t => ⟨t, t⟩

/-- `interior_types(environment, ti, tj)`.  Arms in source order.  In the
function-type arm the source calls `interior_types` on the two *domain
tuples*; a tuple matches no case of the inner `match` (it is not a
`GradualType`), so `domain_result` is always `None` and the arm always
returns `None` — the interval constructions below it (which also read the
nonexistent attributes `.upper`/`.lower`) are dead code.  The
`Type(), Unknown()` and `Unknown(), Type()` arms also capture function
types on the non-`Unknown` side, because the evidence module's
`GradualFunctionType` subclasses `Type`; the two later
`GradualFunctionType`/`Unknown` arms of the source are shadowed by them
and therefore dead. -/
def interior_types (env : Env) : GType → GType → Option (EInterval × EInterval)
  | .fn _ _, .fn _ _ => none
  | .unknown, .unknown => some (⟨.bot, .top⟩, ⟨.bot, .top⟩)
  | .unknown, t2 => some (⟨.bot, t2⟩, lift_gradual_type t2)
  | t1, .unknown => some (lift_gradual_type t1, ⟨t1, .top⟩)
  | t1, t2 =>
    if is_subtype env t1 t2 then
      some (lift_gradual_type t1, ⟨t2, t2⟩)
    else none

/-- `Specification.get_signature(var)`: the first signature with the name. -/
def get_signature (s : Spec) (v : String) : Option Sig :=
  s.find? (fun sig => sig.var = v)

/-- `interior_class_specification(environment, spec_1, spec_2)`: per
member name, the interior of the two projected types, sides assigned by
the direction in which the *static* `is_subtype` relates them (the module
imports the static `is_subtype` through `src/gradual/subtyping.py`);
`None` as soon as a shared member has no interior or is related in
neither direction; one-sided members are lifted into their side. -/
def interior_class_specification (env : Env) (sp1 sp2 : Spec) : Option Evd :=
  let vars := (sp2.map (·.var)).foldl pyInsert (pyDedup (sp1.map (·.var)))
  match vars.foldlM
    (fun (acc : ESpec × ESpec) v =>
      match get_signature sp1 v, get_signature sp2 v with
      | some g1, some g2 =>
        match interior_types env g1.type g2.type with
        | none => none
        | some (i1, i2) =>
          if is_subtype env g1.type g2.type then
            some (pyInsert acc.1 ⟨v, i1⟩, pyInsert acc.2 ⟨v, i2⟩)
          else if is_subtype env g2.type g1.type then
            some (pyInsert acc.1 ⟨v, i2⟩, pyInsert acc.2 ⟨v, i1⟩)
          else none
      | some g1, none =>
        some (pyInsert acc.1 ⟨v, lift_gradual_type g1.type⟩, acc.2)
      | none, some g2 =>
        some (acc.1, pyInsert acc.2 ⟨v, lift_gradual_type g2.type⟩)
      | none, none => some acc)
    (([], []) : ESpec × ESpec) with
  | none => none
  | some p => some (Evd.mk (specM p.1) (specM p.2))

/- ### Evidence subtyping (`src/gradual/evidence/subtyping.py`) -/

/-- `is_subtype_interval(environment, i1, i2)`: both bounds statically
related pointwise. -/
def is_subtype_interval (env : Env) (i1 i2 : EInterval) : Bool :=
  is_subtype env i1.lb i2.lb && is_subtype env i1.ub i2.ub

/-- Insertion into the dict `{sig.var: sig.interval}`: an existing key is
overwritten in place, a new key appends. -/
def dictInsertIv (d : List (String × EInterval)) (v : String)
    (i : EInterval) : List (String × EInterval) :=
  if d.any (fun p => p.1 = v) then
    d.map (fun p => if p.1 = v then (v, i) else p)
  else d ++ [(v, i)]

/-- The comprehension `{sig.var: sig.interval for sig in spec.signatures}`:
it reads `.var` of every element in order, so it raises `AttributeError`
at the first bare interval. -/
def specDict : List (String × EInterval) → MSpec →
    Except PyError (List (String × EInterval))
  | acc, [] => .ok acc
  | _, .bare _ :: _ => .error .attributeError
  | acc, .sig s :: rest => specDict (dictInsertIv acc s.var s.interval) rest

/-- `is_subtype_evidence_spec(environment, e1, e2)`: every member of `e2`
is present in `e1` with an interval subtype.  Both dicts are built before
the loop runs, so a bare interval on either side raises first. -/
def is_subtype_evidence_spec (env : Env) (e1 e2 : MSpec) :
    Except PyError Bool :=
  match specDict [] e1 with
  | .error e => .error e
  | .ok d1 =>
    match specDict [] e2 with
    | .error e => .error e
    | .ok d2 =>
      .ok (d2.all (fun p =>
        match (d1.find? (fun q => q.1 = p.1)).map (·.2) with
        | some i1 => is_subtype_interval env i1 p.2
        | none => false))

/- ### Evidence meet (`src/gradual/evidence/functions.py`) -/

/-- `meet_evidence_intervals(environment, interval_1, interval_2)`: the
static meets of the lower and of the upper bounds, combined pairwise and
filtered by `lower <: upper`. -/
def meet_evidence_intervals (env : Env) (i1 i2 : EInterval) : List EInterval :=
  let lowers := meet env i1.lb i2.lb
  let uppers := meet env i1.ub i2.ub
  lowers.foldl
    (fun acc lb =>
      uppers.foldl
        (fun acc ub =>
          if is_subtype env lb ub then pyInsert acc ⟨lb, ub⟩ else acc)
        acc)
    []

/-- The comprehension `[sig for sig in union if sig.var != v1]` building
`extra_signatures`: it reads `.var` of every element, raising
`AttributeError` at a bare interval. -/
def extrasFor (v1 : String) : MSpec → Except PyError MSpec
  | [] => .ok []
  | .bare _ :: _ => .error .attributeError
  | .sig s :: rest =>
    match extrasFor v1 rest with
    | .error e => .error e
    | .ok tail => .ok (if s.var ≠ v1 then .sig s :: tail else tail)

/-- The `for new_signature in new_signatures` loop of
`meet_evidence_specifications`: each met interval is prepended *bare* to
the other-name signatures (`combined = [new_signature] +
extra_signatures`, no `EvidenceSignature` wrapping) and the result added
to the set of specifications. -/
def mesAddAll (extras : MSpec) : List MSpec → List EInterval → List MSpec
  | acc, [] => acc
  | acc, ni :: rest =>
    mesAddAll extras (pyInsertBy especEq acc (.bare ni :: extras)) rest

/-- One `signature_1 × signature_2` step of
`meet_evidence_specifications`: both `.var`s are read (raising on a bare
interval, left operand first); on a name match every met interval
contributes one specification.  The `extra_signatures` comprehension runs
inside the interval loop, so it is evaluated — and can raise — only when
at least one met interval exists. -/
def mesStep (env : Env) (s1 s2 : MSpec) (acc : List MSpec) :
    MItem → MItem → Except PyError (List MSpec)
  | .bare _, _ => .error .attributeError
  | .sig _, .bare _ => .error .attributeError
  | .sig sg1, .sig sg2 =>
    if sg1.var = sg2.var then
      match meet_evidence_intervals env sg1.interval sg2.interval with
      | [] => .ok acc
      | nis =>
        match extrasFor sg1.var (s2.foldl pyInsert (pyDedup s1)) with
        | .error e => .error e
        | .ok extras => .ok (mesAddAll extras acc nis)
    else .ok acc

/-- The inner `for signature_2 in spec_2.signatures` loop. -/
def mesLoop2 (env : Env) (s1 s2 : MSpec) (g1 : MItem) :
    List MSpec → List MItem → Except PyError (List MSpec)
  | acc, [] => .ok acc
  | acc, g2 :: rest =>
    match mesStep env s1 s2 acc g1 g2 with
    | .error e => .error e
    | .ok acc2 => mesLoop2 env s1 s2 g1 acc2 rest

/-- The outer `for signature_1 in spec_1.signatures` loop. -/
def mesLoop1 (env : Env) (s1 s2 : MSpec) :
    List MSpec → List MItem → Except PyError (List MSpec)
  | acc, [] => .ok acc
  | acc, g1 :: rest =>
    match mesLoop2 env s1 s2 g1 acc s2 with
    | .error e => .error e
    | .ok acc2 => mesLoop1 env s1 s2 acc2 rest

/-- `meet_evidence_specifications(environment, spec_1, spec_2)`: for every
pair of elements sharing a name, each met interval produces one
specification — the bare met interval prepended to the other-name
signatures of the operand union.  Two specifications sharing no member
name produce the empty result set; and when an operand contains a bare
interval (a result of this very function fed back in), the `.var` read
raises `AttributeError` as soon as the element is reached. -/
def meet_evidence_specifications (env : Env) (s1 s2 : MSpec) :
    Except PyError (List MSpec) :=
  mesLoop1 env s1 s2 [] s1

/-- The inner candidate loop of `meet_evidences`: the
`is_subtype_evidence_spec` filter is evaluated pair by pair and its
`AttributeError` propagates. -/
def mevLoop2 (env : Env) (sp1 : MSpec) :
    List Evd → List MSpec → Except PyError (List Evd)
  | acc, [] => .ok acc
  | acc, sp2 :: rest =>
    match is_subtype_evidence_spec env sp1 sp2 with
    | .error e => .error e
    | .ok b =>
      mevLoop2 env sp1 (if b then pyInsertBy evdEq acc ⟨sp1, sp2⟩ else acc)
        rest

/-- The outer candidate loop of `meet_evidences`. -/
def mevLoop1 (env : Env) (m2 : List MSpec) :
    List Evd → List MSpec → Except PyError (List Evd)
  | acc, [] => .ok acc
  | acc, sp1 :: rest =>
    match mevLoop2 env sp1 acc m2 with
    | .error e => .error e
    | .ok acc2 => mevLoop1 env m2 acc2 rest

/-- `meet_evidences(environment, evidence_1, evidence_2)`: the Cartesian
product of the two per-side specification meets, filtered by
`is_subtype_evidence_spec`.  Both meets are computed before the product
loops run. -/
def meet_evidences (env : Env) (e1 e2 : Evd) : Except PyError (List Evd) :=
  match meet_evidence_specifications env e1.s1 e2.s1 with
  | .error e => .error e
  | .ok m1 =>
    match meet_evidence_specifications env e1.s2 e2.s2 with
    | .error e => .error e
    | .ok m2 => mevLoop1 env m2 [] m1

/-- The inner pair loop of `meet_complete_evidences`. -/
def mceLoop2 (env : Env) (ev1 : Evd) : CE → CE → Except PyError CE
  | acc, [] => .ok acc
  | acc, ev2 :: rest =>
    match meet_evidences env ev1 ev2 with
    | .error e => .error e
    | .ok news => mceLoop2 env ev1 (acc ++ news) rest

/-- The outer pair loop of `meet_complete_evidences`. -/
def mceLoop1 (env : Env) (ce2 : CE) : CE → CE → Except PyError CE
  | acc, [] => .ok acc
  | acc, ev1 :: rest =>
    match mceLoop2 env ev1 acc ce2 with
    | .error e => .error e
    | .ok acc2 => mceLoop1 env ce2 acc2 rest

/-- `meet_complete_evidences(environment, ce1, ce2)`: the per-pair meets,
collected into one Python *list* (the source starts from `evidences = []`
and `extend`s it); an exception from a per-pair meet propagates. -/
def meet_complete_evidences (env : Env) (ce1 ce2 : CE) :
    Except PyError CE :=
  mceLoop1 env ce2 [] ce1

/- ### Transitivity (`src/gradual/evidence/functions.py`) -/

/-- The `all(left.interval.upper_bound == right.interval.lower_bound ...)`
test over the zipped element lists, with `all`'s short-circuit: the
`.interval` reads raise `AttributeError` when the pair reached holds a
bare interval. -/
def zipBoundsAll : List (MItem × MItem) → Except PyError Bool
  | [] => .ok true
  | (.bare _, _) :: _ => .error .attributeError
  | (.sig _, .bare _) :: _ => .error .attributeError
  | (.sig sl, .sig sr) :: rest =>
    if sl.interval.ub = sr.interval.lb then zipBoundsAll rest else .ok false

/-- `[sig.interval.lower_bound for sig in spec.signatures]` (and the
upper-bound analogue): reads `.interval` of every element, raising on a
bare interval. -/
def boundsOf (f : EInterval → GType) : MSpec → Except PyError (List GType)
  | [] => .ok []
  | .bare _ :: _ => .error .attributeError
  | .sig s :: rest =>
    match boundsOf f rest with
    | .error e => .error e
    | .ok tail => .ok (f s.interval :: tail)

/-- The `for k in right_interior` loop of `transitivity_specifications`.
When the zip test passes, the source builds the two bound lists and then
executes `result.add((left_bounds, right_bounds))` — hashing a tuple of
(unhashable) Python lists, which raises `TypeError`. -/
def tsLoop3 (env : Env) (j : MSpec) : List (List GType × List GType) →
    List MSpec → Except PyError (List (List GType × List GType))
  | acc, [] => .ok acc
  | acc, k :: rest =>
    match zipBoundsAll (j.zip k) with
    | .error e => .error e
    | .ok b =>
      if b then
        match boundsOf (·.lb) j with
        | .error e => .error e
        | .ok _ =>
          match boundsOf (·.ub) k with
          | .error e => .error e
          | .ok _ => .error .typeError
      else tsLoop3 env j acc rest

/-- The `for j in left_interior` loop. -/
def tsLoop2 (env : Env) (rights : List MSpec) :
    List (List GType × List GType) → List MSpec →
      Except PyError (List (List GType × List GType))
  | acc, [] => .ok acc
  | acc, j :: rest =>
    match tsLoop3 env j acc rights with
    | .error e => .error e
    | .ok acc2 => tsLoop2 env rights acc2 rest

/-- The `for i in meet_group` loop: the two interior meets are computed
per middle specification; feeding the malformed middle `i` (its first
element a bare interval) back into `meet_evidence_specifications` raises
`AttributeError` as soon as the other operand is non-empty. -/
def tsLoop1 (env : Env) (p1 p2 : MSpec × MSpec) :
    List (List GType × List GType) → List MSpec →
      Except PyError (List (List GType × List GType))
  | acc, [] => .ok acc
  | acc, i :: rest =>
    match meet_evidence_specifications env p1.1 i with
    | .error e => .error e
    | .ok lefts =>
      match meet_evidence_specifications env i p2.2 with
      | .error e => .error e
      | .ok rights =>
        match tsLoop2 env rights acc lefts with
        | .error e => .error e
        | .ok acc2 => tsLoop1 env p1 p2 acc2 rest

/-- `transitivity_specifications(environment, par_spec_1, par_spec_2)`.
The source zips the Python element *sets*, whose iteration order is
unspecified; this model iterates the deterministic insertion-ordered
lists — in every instance evaluated in this file every reachable zip is
preempted by an exception or empty, so the order is never observable. -/
def transitivity_specifications (env : Env) (p1 p2 : MSpec × MSpec) :
    Except PyError (List (List GType × List GType)) :=
  match meet_evidence_specifications env p2.1 p1.2 with
  | .error e => .error e
  | .ok meetGroup => tsLoop1 env p1 p2 [] meetGroup

/-- The inner pair loop of `transitivity_complete_evidences`.  The arm
for a nonempty returned combination list — where the source would wrap
the bound-list pairs in `Evidence` objects and hash them into `results`,
raising `TypeError` — is unreachable, since
`transitivity_specifications` only ever returns the empty list or
raises. -/
def tceLoop2 (env : Env) (ev1 : Evd) : CE → CE → Except PyError CE
  | res, [] => .ok res
  | res, ev2 :: rest =>
    match transitivity_specifications env (ev1.s1, ev1.s2)
        (ev2.s1, ev2.s2) with
    | .error e => .error e
    | .ok [] => tceLoop2 env ev1 res rest
    | .ok (_ :: _) => .error .typeError

/-- The outer pair loop of `transitivity_complete_evidences`. -/
def tceLoop1 (env : Env) (ce2 : CE) : CE → CE → Except PyError CE
  | res, [] => .ok res
  | res, ev1 :: rest =>
    match tceLoop2 env ev1 res ce2 with
    | .error e => .error e
    | .ok res2 => tceLoop1 env ce2 res2 rest

/-- `transitivity_complete_evidences(environment, ce1, ce2)`: per pair of
evidences, collect the `transitivity_specifications` results; a raised
exception propagates. -/
def transitivity_complete_evidences (env : Env) (ce1 ce2 : CE) :
    Except PyError CE :=
  tceLoop1 env ce2 [] ce1

example : interior_class_specification envSix
    [⟨"x", .cls "B"⟩] [] =
    some ⟨[.sig ⟨"x", ⟨.cls "B", .cls "B"⟩⟩], []⟩ := by decide
example : interior_class_specification envSix
    [⟨"x", .unknown⟩, ⟨"y", .cls "A"⟩, ⟨"z", .unknown⟩]
    [⟨"x", .cls "B"⟩] = none := by decide
example : meet_evidence_specifications envSix
    [.sig ⟨"x", ⟨.cls "B", .cls "B"⟩⟩] [.sig ⟨"x", ⟨.cls "B", .cls "B"⟩⟩] =
    .ok [[.bare ⟨.cls "B", .cls "B"⟩]] := by decide
example : transitivity_complete_evidences envSix
    [⟨[.sig ⟨"x", ⟨.bot, .cls "B"⟩⟩, .sig ⟨"y", ⟨.cls "A", .cls "A"⟩⟩,
       .sig ⟨"z", ⟨.bot, .top⟩⟩], [.sig ⟨"x", ⟨.cls "B", .cls "B"⟩⟩]⟩]
    [⟨[.sig ⟨"x", ⟨.cls "B", .cls "B"⟩⟩], []⟩] =
    .error .attributeError := by decide
example : meet_complete_evidences envSix
    [⟨[.sig ⟨"x", ⟨.cls "B", .cls "B"⟩⟩], []⟩]
    [⟨[.sig ⟨"x", ⟨.cls "B", .cls "B"⟩⟩], []⟩] = .ok [] := by decide

/- ### Claim theorems -/

/-- A concrete non-function type: `Top`, `Bottom` or a class name. -/
def isConcreteNonFn : GType → Bool
  | .top => true
  | .bot => true
  | .cls _ => true
  | _ => false

/-- C1, counterexample.  In the six-class diamond, `B` is a gradual subtype
of `A`, yet `interior_types` applied as `(A, B)` — the wider type first —
returns `None`: the source only tests `is_subtype(ti, tj)` and has no
symmetric case, so "non-None iff one side is a gradual subtype of the
other" fails.  Moreover in the direction that is defined the wider side's
interval is `[A, A]`, not the claimed `[B, A]`. -/
theorem c1_counterexample :
    is_gradual_subtype envSix (.cls "B") (.cls "A") = true ∧
    interior_types envSix (.cls "A") (.cls "B") = none ∧
    interior_types envSix (.cls "B") (.cls "A") =
      some (⟨.cls "B", .cls "B"⟩, ⟨.cls "A", .cls "A"⟩) := by decide

/-- C1, amended: for concrete non-function types `interior_types` is
defined iff `t1` is a (gradual, equivalently static) subtype of `t2`, and
then returns the exact lift `[t1, t1]` on the left and `[t2, t2]` on the
right; in particular it returns `None` whenever neither side is a gradual
subtype of the other. -/
theorem c1_interior_concrete (env : Env) (t1 t2 : GType)
    (h1 : isConcreteNonFn t1 = true) (h2 : isConcreteNonFn t2 = true) :
    interior_types env t1 t2 =
      if is_subtype env t1 t2 then some (⟨t1, t1⟩, ⟨t2, t2⟩) else none := by
  cases t1 <;> cases t2 <;>
    simp_all [isConcreteNonFn, interior_types, lift_gradual_type]

/-- C1, witness: the amended theorem at `(B, A)` in the six-class diamond. -/
theorem c1_witness :
    interior_types envSix (.cls "B") (.cls "A") =
      if is_subtype envSix (.cls "B") (.cls "A") then
        some (⟨.cls "B", .cls "B"⟩, ⟨.cls "A", .cls "A"⟩)
      else none :=
  c1_interior_concrete envSix (.cls "B") (.cls "A") (by decide) (by decide)

/-- C3, counterexample: `is_gradual_subtype` on the function types
`(?) -> ?` and `(A) -> A` is `False` in the six-class diamond, although
the claim says it holds for every `T`: the source checks the domains and
the codomain with the *static* `is_subtype`, not recursively with
`is_gradual_subtype`, and the static relation never relates `A` and `?`. -/
theorem c3_counterexample :
    is_gradual_subtype envSix (.fn [.unknown] .unknown)
      (.fn [.cls "A"] (.cls "A")) = false := by decide

/-- The static recursion never relates a non-`Bottom`, non-`Unknown` type
to `Unknown` on the right: no branch of `is_subtype` fires (Python's
`Unknown` is not a `TopType`, `FunctionType` or `ClassName`). -/
theorem isSubAux_fst_to_unknown (env : Env) (fuel : Nat)
    (vis : List (GType × GType)) (t1 : GType) (h1 : t1 ≠ .bot)
    (h2 : t1 ≠ .unknown) : (isSubAux env fuel vis t1 .unknown).1 = false := by
  cases t1 <;> simp_all [isSubAux] <;> split <;> rfl

/-- Dually, `Unknown` on the left is statically below nothing except
`Unknown` itself and `Top`. -/
theorem isSubAux_fst_unknown_to (env : Env) (fuel : Nat)
    (vis : List (GType × GType)) (t2 : GType) (h1 : t2 ≠ .top)
    (h2 : t2 ≠ .unknown) : (isSubAux env fuel vis .unknown t2).1 = false := by
  cases t2 <;> simp_all [isSubAux] <;> split <;> rfl

/-- `Bottom` is statically below anything, at any fuel, provided the pair
is not already in the `visited` set. -/
theorem isSubAux_fst_bot (env : Env) (fuel : Nat)
    (vis : List (GType × GType)) (t2 : GType)
    (h : (GType.bot, t2) ∉ vis) : (isSubAux env fuel vis .bot t2).1 = true := by
  rw [isSubAux]
  by_cases hbt : (GType.bot : GType) = t2 <;>
    by_cases htp : t2 = (GType.top : GType) <;> simp_all

/-- C3, amended: the components of equal-arity function types are compared
with the static `is_subtype` (contravariant domains, covariant codomain),
so `(?) -> ?` is gradually below `(T) -> T` exactly when `T` is `Unknown`
itself (the equality check), for every environment. -/
theorem c3_function_unknown (env : Env) (T : GType) :
    is_gradual_subtype env (.fn [.unknown] .unknown) (.fn [T] T) =
      decide (T = .unknown) := by
  obtain ⟨m, hm⟩ : ∃ m, subFuel env (.fn [.unknown] .unknown) (.fn [T] T) =
      m + 1 := ⟨_, rfl⟩
  rw [is_gradual_subtype, hm, isGradAux]
  cases T <;>
    simp [isSubAux_fst_to_unknown, isSubAux_fst_unknown_to, isSubAux_fst_bot]

/-- C4: in the six-class diamond the resolver of `src/gradual/functions.py`
resolves `F` to `{z : D, y : A}`: the diamond-inherited `x` is dropped
because its projected parent types `?` (from `D`) and `E` are not both
class names, so the meet-based inheritance is never consulted — while the
repository's own test (`test_get_specifications_F`) and the claim demand
`{x : ?, y : A, z : D}`.  The resolver of `src/static/functions.py`
resolves `x` to `Bottom` (the meet of `?` and `E` in its lattice), which
also differs from the demanded `Unknown`. -/
theorem c4_resolution_drops_x :
    get_specificationsG envSix "F" =
      .ok [⟨"z", .cls "D"⟩, ⟨"y", .cls "A"⟩] ∧
    specSetEq [⟨"z", .cls "D"⟩, ⟨"y", .cls "A"⟩]
      [⟨"x", .unknown⟩, ⟨"y", .cls "A"⟩, ⟨"z", .cls "D"⟩] = false ∧
    get_specificationsS envSix "F" =
      [⟨"z", .cls "D"⟩, ⟨"x", .bot⟩, ⟨"y", .cls "A"⟩] := by decide

set_option maxHeartbeats 4000000 in
/-- C5: in the four-node diamond `B, C <: A`, `D <: B, C` (any `sigma`),
`meet(B, C)` is exactly `{D}` and `join(B, C)` is exactly `{A}`. -/
theorem c5_diamond_meet_join (σ : List (String × Spec)) :
    meet ⟨["A", "B", "C", "D"],
          [⟨"B", "A"⟩, ⟨"C", "A"⟩, ⟨"D", "B"⟩, ⟨"D", "C"⟩], σ⟩
        (.cls "B") (.cls "C") = [.cls "D"] ∧
    join ⟨["A", "B", "C", "D"],
          [⟨"B", "A"⟩, ⟨"C", "A"⟩, ⟨"D", "B"⟩, ⟨"D", "C"⟩], σ⟩
        (.cls "B") (.cls "C") = [.cls "A"] := by
  constructor <;> rfl

/-- C7, counterexample: a meet over two function types of different arity
that does *not* raise: `meet_evidence_intervals` on intervals bounded by
`() -> Bottom` and `(Bottom) -> Bottom` delegates to the static `meet`,
which treats the mismatched function types as ordinary unrelated types and
returns `{Bottom}`, yielding the normal interval set `{[Bottom, Bottom]}`
instead of an error. -/
theorem c7_counterexample :
    meet envSix (.fn [] .bot) (.fn [.bot] .bot) = [.bot] ∧
    meet_evidence_intervals envSix
      ⟨.fn [] .bot, .fn [] .bot⟩ ⟨.fn [.bot] .bot, .fn [.bot] .bot⟩ =
      [⟨.bot, .bot⟩] := by decide

/-- C7, amended: only `meet_unique_consistent` and
`join_unique_consistent` of `src/gradual/functions.py` raise (a
`ValueError`) on a function-type arity mismatch, and they do so for every
environment and every pair of mismatched function types; the static
set-valued `meet`/`join` — and hence `meet_evidence_intervals` — instead
return their normal set results on such inputs. -/
theorem c7_arity_mismatch_raises (env : Env) (d1 d2 : List GType)
    (c1 c2 : GType) (h : d1.length ≠ d2.length) :
    meet_unique_consistent env (.fn d1 c1) (.fn d2 c2) =
      .error .valueError ∧
    join_unique_consistent env (.fn d1 c1) (.fn d2 c2) =
      .error .valueError := by
  constructor <;>
    simp [meet_unique_consistent, join_unique_consistent, mucAux, h]

/-- C7, witness: the arity-mismatch error at `() -> Bottom` versus
`(Bottom) -> Bottom` in the six-class diamond. -/
theorem c7_witness :
    meet_unique_consistent envSix (.fn [] .bot) (.fn [.bot] .bot) =
      .error .valueError ∧
    join_unique_consistent envSix (.fn [] .bot) (.fn [.bot] .bot) =
      .error .valueError :=
  c7_arity_mismatch_raises envSix [] [.bot] .bot .bot (by decide)

/-- C8: `Bottom` is below and `Top` above every type in every environment;
`lift_gradual_type` sends `Unknown` to `[Bottom, Top]` and every concrete
non-function type to its exact interval `[t, t]`. -/
theorem c8_bottom_top_lift (env : Env) (t : GType) :
    is_subtype env .bot t = true ∧
    is_subtype env t .top = true ∧
    lift_gradual_type .unknown = ⟨.bot, .top⟩ ∧
    (isConcreteNonFn t = true → lift_gradual_type t = ⟨t, t⟩) := by
  refine ⟨?_, ?_, rfl, ?_⟩
  · rw [is_subtype, isSubAux]
    by_cases h : (GType.bot : GType) = t <;> simp [h]
  · rw [is_subtype, isSubAux]
    by_cases h : t = (GType.top : GType) <;> simp [h]
  · intro h
    cases t <;> simp_all [isConcreteNonFn, lift_gradual_type]

/-- C8, witness: the theorem at `t = E` in the six-class diamond. -/
theorem c8_witness :
    is_subtype envSix .bot (.cls "E") = true ∧
    is_subtype envSix (.cls "E") .top = true ∧
    lift_gradual_type .unknown = ⟨.bot, .top⟩ ∧
    (isConcreteNonFn (.cls "E") = true →
      lift_gradual_type (.cls "E") = ⟨.cls "E", .cls "E"⟩) :=
  c8_bottom_top_lift envSix (.cls "E")

/-- C10: `meet(env, t, t) = {t}` for every type (the `ti == tj` shortcut),
while `join(env, t, t)` is empty for every `t` that is not a static
subtype of any node of the environment — `upper_set` only ranges over
`Ns` — and in particular `join(env, Top, Top)` is empty for every
environment. -/
theorem c10_meet_join_self (env : Env) (t : GType)
    (h : ∀ n ∈ env.Ns, is_subtype env t (.cls n) = false) :
    meet env t t = [t] ∧
    join env t t = [] ∧
    join env .top .top = [] := by
  have htop : ∀ n, is_subtype env .top (.cls n) = false := by
    intro n
    rw [is_subtype, isSubAux]
    simp
  have hempty : ∀ u : GType, (∀ n ∈ env.Ns, is_subtype env u (.cls n) = false) →
      join env u u = [] := by
    intro u hu
    have h1 : upper_set env u = [] := by
      unfold upper_set
      rw [List.filterMap_eq_nil_iff.mpr]
      · rfl
      · intro n hn
        simp [hu n hn]
    simp [join, h1]
  exact ⟨by simp [meet], hempty t h, hempty .top (fun n _ => htop n)⟩

/-- C10, witness: the theorem at `t = Top` in the six-class diamond. -/
theorem c10_witness :
    meet envSix .top .top = [.top] ∧
    join envSix .top .top = [] ∧
    join envSix .top .top = [] :=
  c10_meet_join_self envSix .top (by decide)

/-- C2: the transitivity scenario of the claim (and of the repository's own
tests `test_interior_d_b` and `test_transitivity_idb_ib_a`) fails on the
code.  First, `interior(D, B)` — on the resolved specifications of `D` and
`B` — is `None`, because the shared member `x` projects to `?` and `B`,
which the *static* `is_subtype` used for the direction test relates in
neither direction.  Second, even on the evidence values the test expects
those interiors to be, `transitivity_complete_evidences` raises an
`AttributeError` instead of returning a set of evidences: the middle meet
of `interior(B, A)`'s left side with `interior(D, B)`'s right side is the
non-empty set `{{x-met interval}}` whose specification holds the met
interval *bare*, and feeding it back into
`meet_evidence_specifications` reads `.var` of that bare
`EvidenceInterval` — so the claimed evidence bounding `x` by
`[Bottom, B]` is never produced. -/
theorem c2_transitivity_pipeline :
    get_specificationsG envSix "D" =
      .ok [⟨"x", .unknown⟩, ⟨"y", .cls "A"⟩, ⟨"z", .unknown⟩] ∧
    get_specificationsG envSix "B" = .ok [⟨"x", .cls "B"⟩] ∧
    interior_class_specification envSix
      [⟨"x", .unknown⟩, ⟨"y", .cls "A"⟩, ⟨"z", .unknown⟩]
      [⟨"x", .cls "B"⟩] = none ∧
    transitivity_complete_evidences envSix
      [⟨[.sig ⟨"x", ⟨.bot, .cls "B"⟩⟩, .sig ⟨"y", ⟨.cls "A", .cls "A"⟩⟩,
         .sig ⟨"z", ⟨.bot, .top⟩⟩], [.sig ⟨"x", ⟨.cls "B", .cls "B"⟩⟩]⟩]
      [⟨[.sig ⟨"x", ⟨.cls "B", .cls "B"⟩⟩], []⟩] =
      .error .attributeError := by decide

/- ### Cycle detection (`src/static/validations.py`) -/

/-- `adj[node]` of `build_adjacency_list`: the targets of the edges leaving
`node`, in edge order. -/
def adjOf (env : Env) (n : String) : List String :=
  (env.Es.filter (fun e => e.source = n)).map (·.target)

/-- Fuel bound for `dfs`: the recursion only descends into unvisited nodes
and marks each visited on entry, so its depth is bounded by the number of
distinct nodes, all of which are in `Ns` or edge endpoints. -/
def dfsFuel (env : Env) : Nat := env.Ns.length + 2 * env.Es.length + 1

/-- The neighbor scan of `dfs`, with the early `return False` modelled by
the absorbing `false` state; `go` is the recursive `dfs` call at the next
fuel level. -/
def dfsLoop
    (go : String → List String → List String →
      Bool × List String × List String) :
    List String → (Bool × List String × List String) →
      Bool × List String × List String
  | [], acc => acc
  | nb :: rest, acc =>
    dfsLoop go rest
      (if acc.1 then
        if nb ∉ acc.2.1 then go nb acc.2.1 acc.2.2
        else if nb ∈ acc.2.2 then (false, acc.2.1, acc.2.2)
        else acc
      else acc)

/-- `dfs(node, visited, stack, adj)`: mark the node visited and on the
stack, scan the neighbors in order — recursing into unvisited ones,
failing on one found on the stack — and pop the node on success.  The two
mutated sets are threaded through and returned; an early `return False`
leaves the node on the stack, exactly as the source does.  Running out of
fuel yields `False` (never reached with `dfsFuel`, and conservative for
every soundness statement proved below, since those only draw conclusions
from `true` results). -/
def dfsAux (env : Env) : Nat → String → List String → List String →
    Bool × List String × List String
  | 0, node, visited, stack =>
    (false, pyInsert visited node, pyInsert stack node)
  | fuel' + 1, node, visited, stack =>
    match dfsLoop (dfsAux env fuel') (adjOf env node)
        (true, pyInsert visited node, pyInsert stack node) with
    | (false, v, s) => (false, v, s)
    | (true, v, s) => (true, v, s.erase node)

/-- The `for node in Ns` loop of `acyclic`, with the early `return False`
modelled by the absorbing `false` state. -/
def acyclicLoop (env : Env) : List String →
    (Bool × List String × List String) → Bool × List String × List String
  | [], acc => acc
  | node :: rest, acc =>
    acyclicLoop env rest
      (if acc.1 then
        if node ∉ acc.2.1 then
          dfsAux env (dfsFuel env) node acc.2.1 acc.2.2
        else acc
      else acc)

/-- `acyclic(psi)`: run `dfs` from every not-yet-visited node of `Ns`,
sharing the `visited` set; `False` as soon as one run fails. -/
def acyclic (env : Env) : Bool :=
  (acyclicLoop env env.Ns (true, [], [])).1

example : acyclic envSix = true := by decide
example : acyclic ⟨["A", "B"], [⟨"A", "B"⟩, ⟨"B", "A"⟩], []⟩ = false := by
  decide

/- ### Soundness of the cycle check (towards C9) -/

/-- The direct-edge relation, as the source queries it. -/
def stepR (env : Env) (x y : String) : Prop :=
  is_direct_subtype env x y = true

theorem pyInsert_mem {α} [DecidableEq α] {l : List α} {x y : α} :
    y ∈ pyInsert l x ↔ y ∈ l ∨ y = x := by
  by_cases h : x ∈ l
  · simp only [pyInsert, if_pos h]
    constructor
    · exact Or.inl
    · rintro (hy | rfl)
      · exact hy
      · exact h
  · simp [pyInsert, h]

theorem mem_pyInsert_self {α} [DecidableEq α] {l : List α} {x : α} :
    x ∈ pyInsert l x := pyInsert_mem.mpr (Or.inr rfl)

theorem mem_pyInsert_of_mem {α} [DecidableEq α] {l : List α} {x y : α}
    (h : y ∈ l) : y ∈ pyInsert l x := pyInsert_mem.mpr (Or.inl h)

theorem pyInsert_erase {α} [DecidableEq α] {l : List α} {x : α}
    (h : x ∉ l) : (pyInsert l x).erase x = l := by
  rw [pyInsert, if_neg h, List.erase_append_right _ h]
  simp

theorem mem_adjOf {env : Env} {x y : String} :
    y ∈ adjOf env x ↔ stepR env x y := by
  simp only [adjOf, stepR, is_direct_subtype, List.mem_map, List.mem_filter,
    List.any_eq_true, Bool.and_eq_true, decide_eq_true_eq]
  constructor
  · rintro ⟨e, ⟨he, hs⟩, ht⟩
    exact ⟨e, he, hs, ht⟩
  · rintro ⟨e, he, hs, ht⟩
    exact ⟨e, ⟨he, hs⟩, ht⟩

/-- Once the scan state is `false` it stays `false` untouched (the
Python `return False` has already happened). -/
theorem dfsLoop_false
    (go : String → List String → List String →
      Bool × List String × List String) :
    ∀ nbs v s, dfsLoop go nbs (false, v, s) = (false, v, s) := by
  intro nbs
  induction nbs with
  | nil => intro v s; rfl
  | cons nb rest ih => intro v s; rw [dfsLoop]; exact ih v s

/-- The invariant maintained by the DFS: the stack is a subset of the
visited set, and there is a rank function under which every finished node
(visited and off the stack) has all its successors finished with strictly
smaller rank. -/
def DfsInv (env : Env) (V S : List String) : Prop :=
  (∀ x ∈ S, x ∈ V) ∧
  ∃ rank : String → Nat, ∀ x, x ∈ V → x ∉ S →
    ∀ y, stepR env x y → y ∈ V ∧ y ∉ S ∧ rank y < rank x

theorem foldr_max_le {l : List String} {rank : String → Nat} {y : String}
    (h : y ∈ l) : rank y ≤ l.foldr (fun a m => max (rank a) m) 0 := by
  induction l with
  | nil => cases h
  | cons a rest ih =>
    rcases List.mem_cons.mp h with rfl | hy
    · exact le_max_left _ _
    · exact le_trans (ih hy) (le_max_right _ _)

/-- Main soundness lemma for one `dfs` call: from an unvisited node and an
invariant-satisfying state, a `true` result restores the stack, grows the
visited set, marks the node visited, and preserves the invariant.  A
`false` result needs no conclusion: `acyclic` then returns `False`
anyway.  The lemma holds at every fuel because running out of fuel
returns `false`. -/
theorem dfsAux_sound (env : Env) :
    ∀ fuel u V S V' S', u ∉ V → DfsInv env V S →
      dfsAux env fuel u V S = (true, V', S') →
      S' = S ∧ (∀ x ∈ V, x ∈ V') ∧ u ∈ V' ∧ DfsInv env V' S' := by
  intro fuel
  induction fuel with
  | zero =>
    intro u V S V' S' _ _ heq
    rw [dfsAux] at heq
    simp at heq
  | succ f ih =>
    intro u V S V' S' hu hinv heq
    rw [dfsAux] at heq
    have huS : u ∉ S := fun h => hu (hinv.1 u h)
    -- invariant holds after the push
    have hinv1 : DfsInv env (pyInsert V u) (pyInsert S u) := by
      constructor
      · intro x hx
        rcases pyInsert_mem.mp hx with hx | rfl
        · exact mem_pyInsert_of_mem (hinv.1 x hx)
        · exact mem_pyInsert_self
      · obtain ⟨rank, hrank⟩ := hinv.2
        refine ⟨rank, ?_⟩
        intro x hx hxs y hxy
        have hxu : x ≠ u := fun h => hxs (h ▸ mem_pyInsert_self)
        have hx' : x ∈ V := by
          rcases pyInsert_mem.mp hx with hx | rfl
          · exact hx
          · exact absurd rfl hxu
        have hxs' : x ∉ S := fun h => hxs (mem_pyInsert_of_mem h)
        obtain ⟨hyV, hyS, hlt⟩ := hrank x hx' hxs' y hxy
        have hyu : y ≠ u := fun h => hu (h ▸ hyV)
        refine ⟨mem_pyInsert_of_mem hyV, ?_, hlt⟩
        intro h
        rcases pyInsert_mem.mp h with h | h
        · exact hyS h
        · exact hyu h
    -- the neighbor loop preserves the pushed invariant and finishes
    -- every scanned neighbor
    have hloop :
        ∀ nbs Vc, DfsInv env Vc (pyInsert S u) →
          ∀ Ve Se,
            dfsLoop (dfsAux env f) nbs (true, Vc, pyInsert S u) =
              (true, Ve, Se) →
            Se = pyInsert S u ∧ (∀ x ∈ Vc, x ∈ Ve) ∧
              DfsInv env Ve (pyInsert S u) ∧
              ∀ y ∈ nbs, y ∈ Ve ∧ y ∉ pyInsert S u := by
      intro nbs
      induction nbs with
      | nil =>
        intro Vc hc Ve Se heq
        rw [dfsLoop] at heq
        cases heq
        exact ⟨rfl, fun x hx => hx, hc, by simp⟩
      | cons nb rest ihn =>
        intro Vc hc Ve Se heq
        rw [dfsLoop] at heq
        by_cases hnb : nb ∈ Vc
        · simp only [if_pos rfl, if_neg (not_not_intro hnb)] at heq
          by_cases hst : nb ∈ pyInsert S u
          · rw [if_pos hst] at heq
            simp only [if_true] at heq
            rw [dfsLoop_false] at heq
            simp at heq
          · rw [if_neg hst] at heq
            obtain ⟨hSe, hmono2, hinv3, hrest⟩ := ihn Vc hc Ve Se heq
            refine ⟨hSe, hmono2, hinv3, ?_⟩
            intro y hy
            rcases List.mem_cons.mp hy with rfl | hy
            · exact ⟨hmono2 y hnb, hst⟩
            · exact hrest y hy
        · simp only [if_pos rfl, if_pos hnb] at heq
          rcases hr : dfsAux env f nb Vc (pyInsert S u) with ⟨b, Vr, Sr⟩
          rw [hr] at heq
          cases b
          · simp only [if_true] at heq
            rw [dfsLoop_false] at heq
            simp at heq
          · obtain ⟨hSr, hmono, hnbV, hinv2⟩ :=
              ih nb Vc (pyInsert S u) Vr Sr hnb hc hr
            subst hSr
            obtain ⟨hSe, hmono2, hinv3, hrest⟩ := ihn Vr hinv2 Ve Se heq
            refine ⟨hSe, fun x hx => hmono2 x (hmono x hx), hinv3, ?_⟩
            intro y hy
            rcases List.mem_cons.mp hy with rfl | hy
            · have hyS : y ∉ pyInsert S u := fun h => hnb (hc.1 y h)
              exact ⟨hmono2 y hnbV, hyS⟩
            · exact hrest y hy
    rcases hl : dfsLoop (dfsAux env f) (adjOf env u)
        (true, pyInsert V u, pyInsert S u) with ⟨b, Ve, Se⟩
    rw [hl] at heq
    cases b
    · simp at heq
    · simp only [Prod.mk.injEq, true_and] at heq
      obtain ⟨hV', hS'⟩ := heq
      obtain ⟨hSe, hmono, hinv2, hnbs⟩ := hloop (adjOf env u)
        (pyInsert V u) hinv1 Ve Se hl
      subst hSe
      rw [pyInsert_erase huS] at hS'
      subst hV'
      subst hS'
      have hVsub : ∀ x ∈ V, x ∈ Ve :=
        fun x hx => hmono x (mem_pyInsert_of_mem hx)
      refine ⟨rfl, hVsub, hmono u mem_pyInsert_self, ?_⟩
      constructor
      · intro x hx
        exact hVsub x (hinv.1 x hx)
      · -- extend the rank to the freshly finished node `u`
        obtain ⟨rank, hrank⟩ := hinv2.2
        refine ⟨fun x => if x = u then
          (adjOf env u).foldr (fun a m => max (rank a) m) 0 + 1
          else rank x, ?_⟩
        intro x hx hxs y hxy
        by_cases hxu : x = u
        · subst hxu
          have hy := hnbs y (mem_adjOf.mpr hxy)
          have hyu : y ≠ x := fun h => hy.2 (h ▸ mem_pyInsert_self)
          have hyS : y ∉ S := fun h => hy.2 (mem_pyInsert_of_mem h)
          refine ⟨hy.1, hyS, ?_⟩
          simp only [if_neg hyu, if_pos rfl]
          exact Nat.lt_succ_of_le (foldr_max_le (mem_adjOf.mpr hxy))
        · have hxS1 : x ∉ pyInsert S u := by
            intro h
            rcases pyInsert_mem.mp h with h | h
            · exact hxs h
            · exact hxu h
          obtain ⟨hyV, hyS1, hlt⟩ := hrank x hx hxS1 y hxy
          have hyu : y ≠ u := fun h => hyS1 (h ▸ mem_pyInsert_self)
          have hyS : y ∉ S := fun h => hyS1 (mem_pyInsert_of_mem h)
          refine ⟨hyV, hyS, ?_⟩
          simp only [if_neg hyu, if_neg hxu]
          exact hlt

/-- Once the node scan of `acyclic` has failed it stays failed. -/
theorem acyclicLoop_false (env : Env) :
    ∀ ns v s, acyclicLoop env ns (false, v, s) = (false, v, s) := by
  intro ns
  induction ns with
  | nil => intro v s; rfl
  | cons n rest ih => intro v s; rw [acyclicLoop]; exact ih v s

/-- A successful scan of a node list extends the invariant-satisfying
visited set to cover every scanned node. -/
theorem acyclicLoop_sound (env : Env) :
    ∀ ns V, DfsInv env V [] →
      (acyclicLoop env ns (true, V, [])).1 = true →
      ∃ V', DfsInv env V' [] ∧ (∀ x ∈ V, x ∈ V') ∧ ∀ n ∈ ns, n ∈ V' := by
  intro ns
  induction ns with
  | nil =>
    intro V hinv _
    exact ⟨V, hinv, fun x hx => hx, by simp⟩
  | cons node rest ih =>
    intro V hinv htrue
    rw [acyclicLoop] at htrue
    by_cases hn : node ∈ V
    · simp only [if_pos rfl, if_neg (not_not_intro hn)] at htrue
      obtain ⟨V', hi, hmono, hrest⟩ := ih V hinv htrue
      refine ⟨V', hi, hmono, ?_⟩
      intro n hmem
      rcases List.mem_cons.mp hmem with rfl | hmem
      · exact hmono n hn
      · exact hrest n hmem
    · simp only [if_pos rfl, if_pos hn] at htrue
      rcases hr : dfsAux env (dfsFuel env) node V [] with ⟨b, Vr, Sr⟩
      rw [hr] at htrue
      cases b
      · simp only [if_true] at htrue
        rw [acyclicLoop_false] at htrue
        cases htrue
      · obtain ⟨hSr, hmono1, hnode, hinv2⟩ :=
          dfsAux_sound env (dfsFuel env) node V [] Vr Sr hn hinv hr
        subst hSr
        obtain ⟨V', hi, hmono2, hrest⟩ := ih Vr hinv2 htrue
        refine ⟨V', hi, fun x hx => hmono2 x (hmono1 x hx), ?_⟩
        intro n hmem
        rcases List.mem_cons.mp hmem with rfl | hmem
        · exact hmono2 n hnode
        · exact hrest n hmem

/-- A `True` verdict of `acyclic` yields an invariant-satisfying visited
set covering all of `Ns`. -/
theorem acyclic_reaches (env : Env) (h : acyclic env = true) :
    ∃ V, DfsInv env V [] ∧ ∀ n ∈ env.Ns, n ∈ V := by
  rw [acyclic] at h
  obtain ⟨V, h1, _, h2⟩ := acyclicLoop_sound env env.Ns []
    ⟨by simp, ⟨fun _ => 0, by simp⟩⟩ h
  exact ⟨V, h1, h2⟩

/-- The rank of the invariant strictly decreases along every edge chain
out of a finished node, so no finished node lies on an edge cycle. -/
theorem no_cycle_of_inv (env : Env) {V : List String}
    (hinv : DfsInv env V []) :
    ∀ n ∈ V, ¬ Relation.TransGen (stepR env) n n := by
  obtain ⟨rank, hrank⟩ := hinv.2
  have key : ∀ a b, Relation.TransGen (stepR env) a b → a ∈ V →
      b ∈ V ∧ rank b < rank a := by
    intro a b h
    induction h with
    | single h =>
      intro ha
      obtain ⟨hb, _, hlt⟩ := hrank a ha (by simp) _ h
      exact ⟨hb, hlt⟩
    | tail _ hstep ih =>
      intro ha
      obtain ⟨hb, hlt⟩ := ih ha
      obtain ⟨hc, _, hlt2⟩ := hrank _ hb (by simp) _ hstep
      exact ⟨hc, lt_trans hlt2 hlt⟩
  intro n hn hcyc
  exact absurd (key n n hcyc hn).2 (lt_irrefl _)

/- ### From `is_subtype` to edge chains (towards C9) -/

/-- Extraction from an early-exit scan fold: a `true` result exhibits one
element that passed its guard and whose call succeeded. -/
theorem foldl_scan_exists {β γ : Type _} (G : γ → β → Bool × γ)
    (p : β → Prop) [DecidablePred p] :
    ∀ (l : List β) (c : γ),
      ((l.foldl (fun (acc : Bool × γ) b =>
        if acc.1 then acc else if p b then G acc.2 b else acc)
        (false, c)).1 = true) →
      ∃ b ∈ l, p b ∧ ∃ c', (G c' b).1 = true := by
  intro l
  induction l with
  | nil =>
    intro c h
    simp at h
  | cons b rest ihl =>
    intro c h
    rw [List.foldl_cons] at h
    dsimp only [] at h
    rw [if_neg Bool.false_ne_true] at h
    by_cases hp : p b
    · rw [if_pos hp] at h
      rcases hG : G c b with ⟨r, c2⟩
      rw [hG] at h
      cases r
      · obtain ⟨b', hb', hp', hc'⟩ := ihl c2 h
        exact ⟨b', List.mem_cons_of_mem _ hb', hp', hc'⟩
      · exact ⟨b, List.mem_cons_self _ _, hp, c, by rw [hG]⟩
    · rw [if_neg hp] at h
      obtain ⟨b', hb', hp', hc'⟩ := ihl c h
      exact ⟨b', List.mem_cons_of_mem _ hb', hp', hc'⟩

/-- A `True` from the class-name recursion of `is_subtype` exhibits a
chain of declared edges, at every fuel and from every `visited` set. -/
theorem isSubAux_cls_path (env : Env) :
    ∀ fuel vis X Y, (isSubAux env fuel vis (.cls X) (.cls Y)).1 = true →
      Relation.ReflTransGen (stepR env) X Y := by
  intro fuel
  induction fuel with
  | zero =>
    intro vis X Y h
    rw [isSubAux] at h
    by_cases hm : ((GType.cls X : GType), (GType.cls Y : GType)) ∈ vis
    · simp [hm] at h
    · by_cases he : X = Y
      · exact he ▸ Relation.ReflTransGen.refl
      · by_cases hd : is_direct_subtype env X Y
        · exact Relation.ReflTransGen.single hd
        · simp [hm, he, hd] at h
  | succ f ih =>
    intro vis X Y h
    rw [isSubAux] at h
    by_cases hm : ((GType.cls X : GType), (GType.cls Y : GType)) ∈ vis
    · simp [hm] at h
    · by_cases he : X = Y
      · exact he ▸ Relation.ReflTransGen.refl
      · by_cases hd : is_direct_subtype env X Y
        · exact Relation.ReflTransGen.single hd
        · rw [if_neg hm, if_neg (by simpa using he),
            if_neg (by simp : ¬(GType.cls Y : GType) = GType.top),
            if_neg (by simp : ¬(GType.cls X : GType) = GType.bot)] at h
          dsimp only [] at h
          rw [if_neg hd] at h
          obtain ⟨e, he', hsrc, c', hv'⟩ :=
            foldl_scan_exists
              (fun c e => isSubAux env f c (.cls e.target) (.cls Y))
              (fun e => e.source = X) env.Es
              (((GType.cls X : GType), (GType.cls Y : GType)) :: vis) h
          have hstep : stepR env X e.target := by
            simp only [stepR, is_direct_subtype, List.any_eq_true,
              Bool.and_eq_true, decide_eq_true_eq]
            exact ⟨e, he', hsrc, rfl⟩
          exact Relation.ReflTransGen.head hstep (ih c' e.target Y hv')

/- ### `lower_set` facts (towards C9) -/

/-- `Bottom` is statically below every type (the third guard of the
recursion, reached because the `visited` set starts empty). -/
theorem is_subtype_bot (env : Env) (t : GType) :
    is_subtype env GType.bot t = true := by
  rw [is_subtype]
  exact isSubAux_fst_bot env _ [] t (by simp)

/-- Nothing except `Bottom` itself is statically below `Bottom`: no
branch of the recursion fires on a `Bottom` right-hand side. -/
theorem isSubAux_fst_to_bot (env : Env) (fuel : Nat)
    (vis : List (GType × GType)) (t1 : GType) (h : t1 ≠ GType.bot) :
    (isSubAux env fuel vis t1 GType.bot).1 = false := by
  cases t1 <;> simp_all [isSubAux] <;> split <;> rfl

/-- A fold whose step preserves a property of the accumulator preserves it
overall; the step may use membership of the scanned element. -/
theorem foldl_preserves_mem {α β : Type _} (P : α → Prop) :
    ∀ (l : List β) (f : α → β → α),
      (∀ a, ∀ b ∈ l, P a → P (f a b)) → ∀ a, P a → P (l.foldl f a) := by
  intro l
  induction l with
  | nil => intro f _ a ha; exact ha
  | cons b rest ih =>
    intro f h a ha
    rw [List.foldl_cons]
    exact ih f (fun a' b' hb' => h a' b' (List.mem_cons_of_mem _ hb'))
      (f a b) (h a b (List.mem_cons_self _ _) ha)

/-- `lower_set` always contains `Bottom` (its final guard always fires). -/
theorem bot_mem_lower_set (env : Env) (ti : GType) :
    GType.bot ∈ lower_set env ti := by
  rw [lower_set]
  dsimp only []
  rw [if_pos (is_subtype_bot env ti)]
  exact mem_pyInsert_self

/-- `lower_set` always contains its argument (the seed of the fold, which
only ever inserts further elements). -/
theorem self_mem_lower_set (env : Env) (ti : GType) :
    ti ∈ lower_set env ti := by
  rw [lower_set]
  dsimp only []
  rw [if_pos (is_subtype_bot env ti)]
  refine mem_pyInsert_of_mem ?_
  exact foldl_preserves_mem (fun s => ti ∈ s) env.Ns
    (fun acc n =>
      if is_subtype env (GType.cls n) ti && GType.cls n ≠ ti then
        pyInsert acc (GType.cls n) else acc)
    (fun a b _ ha => by
      dsimp only []
      split
      · exact mem_pyInsert_of_mem ha
      · exact ha)
    [ti] (List.mem_singleton_self ti)

/-- Every member of `lower_set env ti` is `ti` itself, `Bottom`, or a
class name drawn from the environment's node list. -/
theorem mem_lower_set_shape (env : Env) (ti x : GType)
    (h : x ∈ lower_set env ti) :
    x = ti ∨ x = GType.bot ∨ ∃ n ∈ env.Ns, x = GType.cls n := by
  rw [lower_set] at h
  dsimp only [] at h
  rw [if_pos (is_subtype_bot env ti)] at h
  rcases pyInsert_mem.mp h with h | rfl
  · have hall := foldl_preserves_mem
      (fun s => ∀ y ∈ s, y = ti ∨ ∃ n ∈ env.Ns, y = GType.cls n)
      env.Ns
      (fun acc n =>
        if is_subtype env (GType.cls n) ti && GType.cls n ≠ ti then
          pyInsert acc (GType.cls n) else acc)
      (fun a b hb ha y hy => by
        dsimp only [] at hy
        split at hy
        · rcases pyInsert_mem.mp hy with hy | rfl
          · exact ha y hy
          · exact Or.inr ⟨b, hb, rfl⟩
        · exact ha y hy)
      [ti] (fun y hy => Or.inl (List.mem_singleton.mp hy))
    rcases hall x h with h1 | h2
    · exact Or.inl h1
    · exact Or.inr (Or.inr h2)
  · exact Or.inr (Or.inl rfl)

/- ### Pigeonhole: a finite progress relation has a cycle (towards C9) -/

/-- In a finite list where every element steps to some element of the
list, some element lies on a cycle: iterating a choice of successors
must repeat within `length + 1` steps. -/
theorem exists_cycle_of_progress {α : Type _} [DecidableEq α]
    (l : List α) (R : α → α → Prop) (hne : l ≠ [])
    (h : ∀ x ∈ l, ∃ y ∈ l, R x y) :
    ∃ x ∈ l, Relation.TransGen R x x := by
  classical
  have hex : ∀ x : α, ∃ y : α, x ∈ l → y ∈ l ∧ R x y := by
    intro x
    by_cases hx : x ∈ l
    · obtain ⟨y, hy, hR⟩ := h x hx
      exact ⟨y, fun _ => ⟨hy, hR⟩⟩
    · exact ⟨x, fun hx' => absurd hx' hx⟩
  choose g hg using hex
  obtain ⟨x0, hx0⟩ := List.exists_mem_of_ne_nil l hne
  have hiter : ∀ (k : Nat) (z : α), z ∈ l → g^[k] z ∈ l := by
    intro k
    induction k with
    | zero => intro z hz; simpa using hz
    | succ k ih =>
      intro z hz
      rw [Function.iterate_succ_apply']
      exact (hg _ (ih z hz)).1
  have htg : ∀ (k : Nat) (z : α), z ∈ l →
      Relation.TransGen R z (g^[k + 1] z) := by
    intro k
    induction k with
    | zero =>
      intro z hz
      rw [Function.iterate_one]
      exact Relation.TransGen.single (hg z hz).2
    | succ k ih =>
      intro z hz
      rw [Function.iterate_succ_apply']
      exact Relation.TransGen.tail (ih z hz) (hg _ (hiter (k + 1) z hz)).2
  have hmaps : ∀ i : Fin (l.length + 1), g^[i.1] x0 ∈ l.toFinset :=
    fun i => List.mem_toFinset.mpr (hiter i.1 x0 hx0)
  have hcard : l.toFinset.card <
      (Finset.univ : Finset (Fin (l.length + 1))).card := by
    rw [Finset.card_univ, Fintype.card_fin]
    exact Nat.lt_succ_of_le (List.toFinset_card_le l)
  obtain ⟨i, -, j, -, hij, heq⟩ :=
    Finset.exists_ne_map_eq_of_card_lt_of_maps_to hcard (fun i _ => hmaps i)
  have main : ∀ a b : Nat, a < b → g^[a] x0 = g^[b] x0 →
      ∃ x ∈ l, Relation.TransGen R x x := by
    intro a b hab hequ
    obtain ⟨d, hd⟩ : ∃ d, b = (d + 1) + a := ⟨b - a - 1, by omega⟩
    have hsplit : g^[(d + 1) + a] x0 = g^[d + 1] (g^[a] x0) :=
      Function.iterate_add_apply g (d + 1) a x0
    refine ⟨g^[a] x0, hiter a x0 hx0, ?_⟩
    have hcyc := htg d (g^[a] x0) (hiter a x0 hx0)
    rw [← hsplit, ← hd, ← hequ] at hcyc
    exact hcyc
  rcases Nat.lt_or_ge i.1 j.1 with hlt | hge
  · exact main i.1 j.1 hlt heq
  · have hlt : j.1 < i.1 :=
      lt_of_le_of_ne hge (fun hh => hij (Fin.ext hh.symm))
    exact main j.1 i.1 hlt heq.symm

/-- If the maximality filter of `meet` removed everything, every candidate
would be strictly below another candidate. -/
theorem filter_maximal_progress (env : Env) (common : List GType)
    (hempty : common.filter
      (fun t => common.all (fun t' => t' = t || ! is_subtype env t t')) = []) :
    ∀ t ∈ common, ∃ t' ∈ common, t' ≠ t ∧ is_subtype env t t' = true := by
  intro t ht
  have hnot := List.filter_eq_nil_iff.mp hempty t ht
  simp only [List.all_eq_true, Bool.or_eq_true, decide_eq_true_eq,
    Bool.not_eq_true', not_forall] at hnot
  push_neg at hnot
  obtain ⟨t', ht', hne, hsub⟩ := hnot
  cases hb : is_subtype env t t' with
  | false => exact absurd hb hsub
  | true => exact ⟨t', ht', hne, hb⟩

/-- One domination step inside a candidate list: the dominated element is
strictly below another candidate (proof artifact for C9, not source). -/
def domR (env : Env) (common : List GType) (a b : GType) : Prop :=
  b ∈ common ∧ a ≠ b ∧ is_subtype env a b = true

/-- Under acyclicity the maximality filter of `meet` keeps at least one
candidate: an empty result would let dominators be chased forever through
the finite candidate list, producing a strict-subtype cycle among class
names of the environment, which the DFS invariant of `acyclic` forbids. -/
theorem meet_maximal_nonempty (env : Env) (common : List GType)
    (hacy : acyclic env = true) (hne : common ≠ [])
    (hshape : ∀ x ∈ common, x = GType.bot ∨ ∃ n ∈ env.Ns, x = GType.cls n) :
    common.filter
      (fun t => common.all (fun t' => t' = t || ! is_subtype env t t')) ≠
      [] := by
  intro hempty
  have hprog := filter_maximal_progress env common hempty
  obtain ⟨x, hxmem, hx⟩ := exists_cycle_of_progress common (domR env common)
    hne
    (fun x hx => by
      obtain ⟨t', ht', hne', hsub⟩ := hprog x hx
      exact ⟨t', ht', ht', Ne.symm hne', hsub⟩)
  have last_edge : ∀ p q : GType, q ∈ common → p ≠ q →
      is_subtype env p q = true → q ∈ common ∧ q ≠ GType.bot := by
    intro p q hq hpq hsub
    refine ⟨hq, ?_⟩
    rintro rfl
    rw [is_subtype, isSubAux_fst_to_bot env _ [] p hpq] at hsub
    exact absurd hsub Bool.false_ne_true
  have targets : ∀ a b : GType, Relation.TransGen (domR env common) a b →
      b ∈ common ∧ b ≠ GType.bot := by
    intro a b hab
    induction hab with
    | single h1 => exact last_edge _ _ h1.1 h1.2.1 h1.2.2
    | tail _ h2 _ => exact last_edge _ _ h2.1 h2.2.1 h2.2.2
  have key : ∀ a b : GType, Relation.TransGen (domR env common) a b →
      ∀ na nb, a = GType.cls na → b = GType.cls nb →
        Relation.TransGen (stepR env) na nb := by
    intro a b hab
    induction hab with
    | single h1 =>
      intro na nb ha hb
      subst ha
      subst hb
      obtain ⟨-, hne', hsub⟩ := h1
      rw [is_subtype] at hsub
      have hpath := isSubAux_cls_path env _ [] na nb hsub
      rcases Relation.ReflTransGen.cases_head hpath with heq2 | ⟨c, hc, hcr⟩
      · exact absurd (by rw [heq2]) hne'
      · exact Relation.TransGen.head' hc hcr
    | tail hab h2 ih =>
      intro na nc ha hc
      obtain ⟨hbmem, hbbot⟩ := targets _ _ hab
      rcases hshape _ hbmem with hb | ⟨m, hm, hbeq⟩
      · exact absurd hb hbbot
      · have h1 := ih na m ha hbeq
        obtain ⟨-, hne', hsub⟩ := h2
        rw [hbeq] at hsub hne'
        subst hc
        rw [is_subtype] at hsub
        have hpath := isSubAux_cls_path env _ [] m nc hsub
        rcases Relation.ReflTransGen.cases_head hpath with heq2 | ⟨c2, hc2, hcr⟩
        · exact absurd (by rw [heq2]) hne'
        · exact Relation.TransGen.trans h1 (Relation.TransGen.head' hc2 hcr)
  obtain ⟨-, hxbot⟩ := targets _ _ hx
  rcases hshape _ hxmem with hxb | ⟨n, hn, hxeq⟩
  · exact absurd hxb hxbot
  · have hcyc2 := key _ _ hx n n hxeq hxeq
    obtain ⟨V, hinv, hcov⟩ := acyclic_reaches env hacy
    exact no_cycle_of_inv env hinv n (hcov n hn) hcyc2

/-- C9: on an acyclic environment `meet` never returns the empty set:
`lower_set` always contains `Bottom` and its own argument, so the
candidate intersection is non-empty, and the maximality filter keeps at
least one candidate because an empty result would force a strict-subtype
cycle among the environment's class names, contradicting `acyclic`. -/
theorem c9_meet_nonempty (env : Env) (t1 t2 : GType)
    (hacy : acyclic env = true) :
    meet env t1 t2 ≠ [] ∧ GType.bot ∈ lower_set env t1 ∧
      t1 ∈ lower_set env t1 := by
  refine ⟨?_, bot_mem_lower_set env t1, self_mem_lower_set env t1⟩
  by_cases hequ : t1 = t2
  · rw [meet, if_pos hequ]
    simp
  · rw [meet, if_neg hequ]
    dsimp only []
    have hbot : GType.bot ∈ (lower_set env t1).filter
        (· ∈ lower_set env t2) :=
      List.mem_filter.mpr ⟨bot_mem_lower_set env t1, by
        simpa using bot_mem_lower_set env t2⟩
    refine meet_maximal_nonempty env _ hacy (List.ne_nil_of_mem hbot) ?_
    intro x hx
    obtain ⟨hx1, hx2b⟩ := List.mem_filter.mp hx
    have hx2 : x ∈ lower_set env t2 := by simpa using hx2b
    rcases mem_lower_set_shape env t1 x hx1 with rfl | rfl | ⟨n, hn, rfl⟩
    · rcases mem_lower_set_shape env t2 x hx2 with h2 | rfl | ⟨n, hn, rfl⟩
      · exact absurd h2 hequ
      · exact Or.inl rfl
      · exact Or.inr ⟨n, hn, rfl⟩
    · exact Or.inl rfl
    · exact Or.inr ⟨n, hn, rfl⟩

/-- C9 witness: the six-class diamond environment is acyclic, and there
`meet(B, C)` is non-empty and `lower_set(B)` contains `Bottom` and `B`. -/
theorem c9_witness :
    meet envSix (GType.cls "B") (GType.cls "C") ≠ [] ∧
      GType.bot ∈ lower_set envSix (GType.cls "B") ∧
      GType.cls "B" ∈ lower_set envSix (GType.cls "B") :=
  c9_meet_nonempty envSix (GType.cls "B") (GType.cls "C") (by decide)

/- ### The self-meet of evidence (towards C6) -/

theorem mem_pyInsertBy {α : Type _} {eq : α → α → Bool} {l : List α}
    {x y : α} (h : y ∈ pyInsertBy eq l x) : y ∈ l ∨ y = x := by
  rw [pyInsertBy] at h
  split at h
  · exact Or.inl h
  · rcases List.mem_append.mp h with h | h
    · exact Or.inl h
    · exact Or.inr (List.mem_singleton.mp h)

theorem mem_pyDedup {α : Type _} [DecidableEq α] {l : List α} {x : α}
    (h : x ∈ pyDedup l) : x ∈ l := by
  rw [pyDedup] at h
  exact foldl_preserves_mem (fun s => ∀ y ∈ s, y ∈ l) l pyInsert
    (fun a b hb ha y hy => by
      rcases pyInsert_mem.mp hy with hy | rfl
      · exact ha y hy
      · exact hb)
    [] (by simp) x h

/-- A `True` verdict of `MSpec.proper` exhibits every element as a proper
signature. -/
theorem proper_mem {s : MSpec} (h : MSpec.proper s = true) :
    ∀ x ∈ s, ∃ sg, x = MItem.sig sg := by
  intro x hx
  rw [MSpec.proper] at h
  have hx2 := List.all_eq_true.mp h x hx
  cases x with
  | sig sg => exact ⟨sg, rfl⟩
  | bare i => simp at hx2

/-- The operand union built inside `meet_evidence_specifications` is
proper when both operands are. -/
theorem union_proper {s1 s2 : MSpec}
    (h1 : ∀ x ∈ s1, ∃ sg, x = MItem.sig sg)
    (h2 : ∀ x ∈ s2, ∃ sg, x = MItem.sig sg) :
    ∀ x ∈ s2.foldl pyInsert (pyDedup s1), ∃ sg, x = MItem.sig sg :=
  foldl_preserves_mem (fun s => ∀ y ∈ s, ∃ sg, y = MItem.sig sg) s2 pyInsert
    (fun a b hb ha y hy => by
      rcases pyInsert_mem.mp hy with hy | rfl
      · exact ha y hy
      · exact h2 _ hb)
    (pyDedup s1)
    (fun y hy => h1 y (mem_pyDedup hy))

/-- The `extra_signatures` comprehension does not raise on a proper
operand union. -/
theorem extrasFor_ok (v : String) :
    ∀ u : MSpec, (∀ x ∈ u, ∃ sg, x = MItem.sig sg) →
      ∃ r, extrasFor v u = .ok r := by
  intro u
  induction u with
  | nil => intro h2; exact ⟨[], rfl⟩
  | cons x rest ih =>
    intro h
    obtain ⟨sg, rfl⟩ := h x (List.mem_cons_self _ _)
    obtain ⟨r, hr⟩ := ih (fun y hy => h y (List.mem_cons_of_mem _ hy))
    refine ⟨if sg.var ≠ v then .sig sg :: r else r, ?_⟩
    simp only [extrasFor]
    rw [hr]

/-- Everything the interval loop adds is a specification headed by a bare
interval. -/
theorem mesAddAll_mem (extras : MSpec) :
    ∀ (nis : List EInterval) (acc : List MSpec) (sp : MSpec),
      sp ∈ mesAddAll extras acc nis →
      sp ∈ acc ∨ ∃ i t, sp = MItem.bare i :: t := by
  intro nis
  induction nis with
  | nil => intro acc sp h; exact Or.inl h
  | cons ni rest ih =>
    intro acc sp h
    simp only [mesAddAll] at h
    rcases ih _ sp h with h | h
    · rcases mem_pyInsertBy h with h | rfl
      · exact Or.inl h
      · exact Or.inr ⟨ni, extras, rfl⟩
    · exact Or.inr h

/-- A pair step of `meet_evidence_specifications` on proper signatures
does not raise, and only adds bare-headed specifications. -/
theorem mesStep_ok (env : Env) {s1 s2 : MSpec}
    (hs1 : ∀ x ∈ s1, ∃ sg, x = MItem.sig sg)
    (hs2 : ∀ x ∈ s2, ∃ sg, x = MItem.sig sg)
    (acc : List MSpec) (sg1 sg2 : ESig) :
    ∃ acc2, mesStep env s1 s2 acc (.sig sg1) (.sig sg2) = .ok acc2 ∧
      ∀ sp ∈ acc2, sp ∈ acc ∨ ∃ i t, sp = MItem.bare i :: t := by
  simp only [mesStep]
  by_cases hv : sg1.var = sg2.var
  · rw [if_pos hv]
    obtain ⟨r, hr⟩ := extrasFor_ok sg1.var _ (union_proper hs1 hs2)
    cases hmi : meet_evidence_intervals env sg1.interval sg2.interval with
    | nil => exact ⟨acc, rfl, fun sp hsp => Or.inl hsp⟩
    | cons ni rest =>
      rw [hr]
      exact ⟨mesAddAll r acc (ni :: rest), rfl,
        fun sp hsp => mesAddAll_mem r (ni :: rest) acc sp hsp⟩
  · rw [if_neg hv]
    exact ⟨acc, rfl, fun sp hsp => Or.inl hsp⟩

/-- The inner signature loop on proper operands: no raise, bare-headed
additions only. -/
theorem mesLoop2_ok (env : Env) {s1 s2 : MSpec}
    (hs1 : ∀ x ∈ s1, ∃ sg, x = MItem.sig sg)
    (hs2 : ∀ x ∈ s2, ∃ sg, x = MItem.sig sg) (sg1 : ESig) :
    ∀ (l : List MItem), (∀ x ∈ l, ∃ sg, x = MItem.sig sg) →
      ∀ acc, ∃ acc2,
        mesLoop2 env s1 s2 (.sig sg1) acc l = .ok acc2 ∧
        ∀ sp ∈ acc2, sp ∈ acc ∨ ∃ i t, sp = MItem.bare i :: t := by
  intro l
  induction l with
  | nil => intro h2 acc; exact ⟨acc, rfl, fun sp h => Or.inl h⟩
  | cons g2 rest ih =>
    intro hl acc
    obtain ⟨sg2, rfl⟩ := hl g2 (List.mem_cons_self _ _)
    obtain ⟨a1, h1, hm1⟩ := mesStep_ok env hs1 hs2 acc sg1 sg2
    obtain ⟨a2, h2, hm2⟩ := ih (fun x hx => hl x (List.mem_cons_of_mem _ hx)) a1
    refine ⟨a2, ?_, ?_⟩
    · simp only [mesLoop2]
      rw [h1]
      exact h2
    · intro sp hsp
      rcases hm2 sp hsp with h | h
      · rcases hm1 sp h with h | h
        · exact Or.inl h
        · exact Or.inr h
      · exact Or.inr h

/-- The outer signature loop on proper operands. -/
theorem mesLoop1_ok (env : Env) {s1 s2 : MSpec}
    (hs1 : ∀ x ∈ s1, ∃ sg, x = MItem.sig sg)
    (hs2 : ∀ x ∈ s2, ∃ sg, x = MItem.sig sg) :
    ∀ (l : List MItem), (∀ x ∈ l, ∃ sg, x = MItem.sig sg) →
      ∀ acc, ∃ acc2,
        mesLoop1 env s1 s2 acc l = .ok acc2 ∧
        ∀ sp ∈ acc2, sp ∈ acc ∨ ∃ i t, sp = MItem.bare i :: t := by
  intro l
  induction l with
  | nil => intro h2 acc; exact ⟨acc, rfl, fun sp h => Or.inl h⟩
  | cons g1 rest ih =>
    intro hl acc
    obtain ⟨sg1, rfl⟩ := hl g1 (List.mem_cons_self _ _)
    obtain ⟨a1, h1, hm1⟩ := mesLoop2_ok env hs1 hs2 sg1 s2 hs2 acc
    obtain ⟨a2, h2, hm2⟩ := ih (fun x hx => hl x (List.mem_cons_of_mem _ hx)) a1
    refine ⟨a2, ?_, ?_⟩
    · simp only [mesLoop1]
      rw [h1]
      exact h2
    · intro sp hsp
      rcases hm2 sp hsp with h | h
      · rcases hm1 sp h with h | h
        · exact Or.inl h
        · exact Or.inr h
      · exact Or.inr h

/-- On proper operands `meet_evidence_specifications` does not raise, and
every specification it returns is headed by a bare interval. -/
theorem mes_ok (env : Env) {s1 s2 : MSpec}
    (hs1 : ∀ x ∈ s1, ∃ sg, x = MItem.sig sg)
    (hs2 : ∀ x ∈ s2, ∃ sg, x = MItem.sig sg) :
    ∃ r, meet_evidence_specifications env s1 s2 = .ok r ∧
      ∀ sp ∈ r, ∃ i t, sp = MItem.bare i :: t := by
  obtain ⟨r, hr, hm⟩ := mesLoop1_ok env hs1 hs2 s1 hs1 []
  refine ⟨r, hr, ?_⟩
  intro sp hsp
  rcases hm sp hsp with h | h
  · exact absurd h (List.not_mem_nil _)
  · exact h

/-- `is_subtype_evidence_spec` raises as soon as its first operand is
headed by a bare interval (the dict build reads `.var` of it). -/
theorem isses_bare (env : Env) {sp1 : MSpec} (sp2 : MSpec) {i : EInterval}
    {t : MSpec} (h : sp1 = MItem.bare i :: t) :
    is_subtype_evidence_spec env sp1 sp2 = .error .attributeError := by
  subst h
  rfl

theorem mevLoop1_nil (env : Env) : ∀ (l : List MSpec) (acc : List Evd),
    mevLoop1 env [] acc l = .ok acc := by
  intro l
  induction l with
  | nil => intro acc; rfl
  | cons sp1 rest ih =>
    intro acc
    simp only [mevLoop1]
    exact ih acc

/-- `meet_evidences` on well-formed evidences is the empty set or an
`AttributeError`: any candidate pair puts a bare-headed specification
through the `is_subtype_evidence_spec` filter. -/
theorem mev_cases (env : Env) {e1 e2 : Evd}
    (h11 : ∀ x ∈ e1.s1, ∃ sg, x = MItem.sig sg)
    (h12 : ∀ x ∈ e1.s2, ∃ sg, x = MItem.sig sg)
    (h21 : ∀ x ∈ e2.s1, ∃ sg, x = MItem.sig sg)
    (h22 : ∀ x ∈ e2.s2, ∃ sg, x = MItem.sig sg) :
    meet_evidences env e1 e2 = .ok [] ∨
    meet_evidences env e1 e2 = .error .attributeError := by
  obtain ⟨m1, hm1, hb1⟩ := mes_ok env h11 h21
  obtain ⟨m2, hm2, hb2⟩ := mes_ok env h12 h22
  rw [meet_evidences, hm1, hm2]
  cases m1 with
  | nil => exact Or.inl rfl
  | cons sp1 r1 =>
    cases m2 with
    | nil => exact Or.inl (mevLoop1_nil env (sp1 :: r1) [])
    | cons sp2 r2 =>
      right
      obtain ⟨i, t, hsp⟩ := hb1 sp1 (List.mem_cons_self _ _)
      have hl2 : mevLoop2 env sp1 [] (sp2 :: r2) = .error .attributeError := by
        simp only [mevLoop2]
        rw [isses_bare env sp2 hsp]
      show mevLoop1 env (sp2 :: r2) [] (sp1 :: r1) = .error .attributeError
      simp only [mevLoop1]
      rw [hl2]

theorem mceLoop2_cases (env : Env) {ev1 : Evd}
    (h1 : ∀ x ∈ ev1.s1, ∃ sg, x = MItem.sig sg)
    (h2 : ∀ x ∈ ev1.s2, ∃ sg, x = MItem.sig sg) :
    ∀ (l : CE), (∀ e ∈ l, (∀ x ∈ e.s1, ∃ sg, x = MItem.sig sg) ∧
        (∀ x ∈ e.s2, ∃ sg, x = MItem.sig sg)) →
      ∀ acc, mceLoop2 env ev1 acc l = .ok acc ∨
        mceLoop2 env ev1 acc l = .error .attributeError := by
  intro l
  induction l with
  | nil => intro h3 acc; exact Or.inl rfl
  | cons ev2 rest ih =>
    intro hl acc
    obtain ⟨h21, h22⟩ := hl ev2 (List.mem_cons_self _ _)
    rcases mev_cases env h1 h2 h21 h22 with hok | herr
    · have hrest := ih (fun e he => hl e (List.mem_cons_of_mem _ he)) acc
      simp only [mceLoop2]
      rw [hok]
      dsimp only []
      rw [List.append_nil]
      exact hrest
    · simp only [mceLoop2]
      rw [herr]
      exact Or.inr rfl

theorem mceLoop1_cases (env : Env) {ce2 : CE}
    (hce2 : ∀ e ∈ ce2, (∀ x ∈ e.s1, ∃ sg, x = MItem.sig sg) ∧
      (∀ x ∈ e.s2, ∃ sg, x = MItem.sig sg)) :
    ∀ (l : CE), (∀ e ∈ l, (∀ x ∈ e.s1, ∃ sg, x = MItem.sig sg) ∧
        (∀ x ∈ e.s2, ∃ sg, x = MItem.sig sg)) →
      ∀ acc, mceLoop1 env ce2 acc l = .ok acc ∨
        mceLoop1 env ce2 acc l = .error .attributeError := by
  intro l
  induction l with
  | nil => intro h3 acc; exact Or.inl rfl
  | cons ev1 rest ih =>
    intro hl acc
    obtain ⟨h1, h2⟩ := hl ev1 (List.mem_cons_self _ _)
    rcases mceLoop2_cases env h1 h2 ce2 hce2 acc with hok | herr
    · have hrest := ih (fun e he => hl e (List.mem_cons_of_mem _ he)) acc
      simp only [mceLoop1]
      rw [hok]
      exact hrest
    · simp only [mceLoop1]
      rw [herr]
      exact Or.inr rfl

/-- C6, counterexample: two self-consistent single-evidence
`CompleteEvidence` values whose self-meets are not themselves.  With an
empty right side the self-meet is the *empty* `CompleteEvidence` (the
meet of two empty specifications is the empty set, so no candidate pair
reaches the filter), and with `{x : [B, B]}` on both sides the self-meet
*raises* `AttributeError`: both candidate specifications hold the met
interval bare, and the `is_subtype_evidence_spec` filter reads `.var` of
it. -/
theorem c6_counterexample :
    is_subtype_evidence_spec envSix
      [.sig ⟨"x", ⟨.cls "B", .cls "B"⟩⟩] [] = .ok true ∧
    meet_complete_evidences envSix
      [⟨[.sig ⟨"x", ⟨.cls "B", .cls "B"⟩⟩], []⟩]
      [⟨[.sig ⟨"x", ⟨.cls "B", .cls "B"⟩⟩], []⟩] = .ok [] ∧
    ceEqPy [] [⟨[.sig ⟨"x", ⟨.cls "B", .cls "B"⟩⟩], []⟩] = false ∧
    is_subtype_evidence_spec envSix
      [.sig ⟨"x", ⟨.cls "B", .cls "B"⟩⟩]
      [.sig ⟨"x", ⟨.cls "B", .cls "B"⟩⟩] = .ok true ∧
    meet_complete_evidences envSix
      [⟨[.sig ⟨"x", ⟨.cls "B", .cls "B"⟩⟩],
        [.sig ⟨"x", ⟨.cls "B", .cls "B"⟩⟩]⟩]
      [⟨[.sig ⟨"x", ⟨.cls "B", .cls "B"⟩⟩],
        [.sig ⟨"x", ⟨.cls "B", .cls "B"⟩⟩]⟩] =
      .error .attributeError := by decide

/-- C6, amended: the self-meet of a `CompleteEvidence` of well-formed
evidences never reproduces a non-empty input: every specification
produced by `meet_evidence_specifications` carries its met interval as a
bare `EvidenceInterval`, so as soon as the two per-side meets of some
evidence pair are both non-empty the `is_subtype_evidence_spec` filter
reads `.var` of a bare interval and the whole meet raises
`AttributeError`; otherwise no candidate pair exists and the meet is the
empty `CompleteEvidence`.  Idempotence therefore holds only for the
empty `CompleteEvidence`. -/
theorem c6_meet_self_empty_or_raises (env : Env) (ce : CE)
    (h : ∀ e ∈ ce, MSpec.proper e.s1 = true ∧ MSpec.proper e.s2 = true) :
    meet_complete_evidences env ce ce = .ok [] ∨
    meet_complete_evidences env ce ce = .error .attributeError := by
  have hP : ∀ e ∈ ce, (∀ x ∈ e.s1, ∃ sg, x = MItem.sig sg) ∧
      (∀ x ∈ e.s2, ∃ sg, x = MItem.sig sg) :=
    fun e he => ⟨proper_mem (h e he).1, proper_mem (h e he).2⟩
  rw [meet_complete_evidences]
  exact mceLoop1_cases env hP ce hP []

/-- C6, witness: the amended theorem at the singleton evidence
`({x : [B, B]}, {x : [B, B]})` in the six-class diamond, where the
raising branch of the disjunction is the one realised. -/
theorem c6_witness :
    meet_complete_evidences envSix
      [⟨[.sig ⟨"x", ⟨.cls "B", .cls "B"⟩⟩],
        [.sig ⟨"x", ⟨.cls "B", .cls "B"⟩⟩]⟩]
      [⟨[.sig ⟨"x", ⟨.cls "B", .cls "B"⟩⟩],
        [.sig ⟨"x", ⟨.cls "B", .cls "B"⟩⟩]⟩] = .ok [] ∨
    meet_complete_evidences envSix
      [⟨[.sig ⟨"x", ⟨.cls "B", .cls "B"⟩⟩],
        [.sig ⟨"x", ⟨.cls "B", .cls "B"⟩⟩]⟩]
      [⟨[.sig ⟨"x", ⟨.cls "B", .cls "B"⟩⟩],
        [.sig ⟨"x", ⟨.cls "B", .cls "B"⟩⟩]⟩] =
      .error .attributeError :=
  c6_meet_self_empty_or_raises envSix
    [⟨[.sig ⟨"x", ⟨.cls "B", .cls "B"⟩⟩],
      [.sig ⟨"x", ⟨.cls "B", .cls "B"⟩⟩]⟩] (by decide)
